import Mathlib

/-!
# Verification of `extract_results.py`

A shallow embedding of the ham-exam result extractor. Python strings are
modelled as `List Char`, machine integers as `Nat`/`Int`/`ℚ` (Python ints are
unbounded; the float `accuracy` is modelled as an exact rational with decimal
half-even rounding), dictionaries with known key sets as structures, and the
two output shapes of `build_output` as an inductive type. Regular-expression
matching is embedded as executable character-level matchers that follow the
Python `re` semantics (leftmost search, greedy/lazy quantifier priority,
non-overlapping `finditer` advancement). Python's stable `list.sort` is
modelled by a stable insertion sort (`pySort`).
-/

/-- ASCII whitespace as matched by `\s` and stripped by `str.strip`
(modelling the ASCII fragment of Python's whitespace set). -/
def pyIsSpace (c : Char) : Bool :=
  c = ' ' || c = '\t' || c = '\n' || c = '\r' || c = '\x0b' || c = '\x0c'

/-- Embeds `\d`: an ASCII digit. -/
def isDigitC (c : Char) : Bool := 48 ≤ c.toNat && c.toNat ≤ 57

/-- Embeds `[A-Z]`: an ASCII uppercase letter. -/
def isUpperC (c : Char) : Bool := 65 ≤ c.toNat && c.toNat ≤ 90

/-- Embeds `[A-D]`: an answer-choice letter. -/
def isAnswerLetter (c : Char) : Bool := c = 'A' || c = 'B' || c = 'C' || c = 'D'

/-- Embeds `\w`: a word character (ASCII fragment), used for `\b` boundaries. -/
def isWordC (c : Char) : Bool :=
  isDigitC c || isUpperC c || (97 ≤ c.toNat && c.toNat ≤ 122) || c = '_'

/-- Numeric value of a digit character. -/
def digitVal (c : Char) : Nat := c.toNat - 48

/-- Embeds `int(...)` applied to a string of digits. -/
def natOfDigits (ds : List Char) : Nat := ds.foldl (fun a c => 10 * a + digitVal c) 0

/-- Consume a literal character sequence, returning the remainder. -/
def litP : List Char → List Char → Option (List Char)
  | [], r => some r
  | _ :: _, [] => none
  | l :: ls, c :: r => if c = l then litP ls r else none

/-- Maximal run of whitespace: `\s*` by maximal munch. -/
def spanWs (cs : List Char) : List Char × List Char :=
  (cs.takeWhile pyIsSpace, cs.dropWhile pyIsSpace)

/-- Embeds `str.strip()`: drop leading and trailing whitespace. -/
def stripPy (cs : List Char) : List Char :=
  ((cs.dropWhile pyIsSpace).reverse.dropWhile pyIsSpace).reverse

/-- Insert `x` into `l`, after every element `y` with `le y x`.  Folded over a
list this yields exactly the result of Python's stable `list.sort`. -/
def insertOrd (le : α → α → Bool) (x : α) : List α → List α
  | [] => [x]
  | y :: l => if le y x then y :: insertOrd le x l else x :: y :: l

/-- Stable sort modelling Python's `list.sort(key=...)`. -/
def pySort (le : α → α → Bool) (l : List α) : List α :=
  l.foldl (fun acc x => insertOrd le x acc) []

/-! ## `QUESTION_RE` and `parse_questions`

`QUESTION_RE = (\d{1,2})\.\s*([A-Z]\d[A-Z]\d{2}):\s*([A-D])\s*(?:\(\s*should be\s*([A-D])\s*\))?`
-/

/-- One match of `QUESTION_RE`: the four capture groups (group 4 optional). -/
structure QMatch where
  number : Nat
  question_id : String
  selected : Char
  should_be : Option Char
  deriving DecidableEq, Repr

/-- Embeds `(\d{1,2})\.`: greedily take two digits, then require `.`; on failure
backtrack to one digit then `.` (a second digit can never be `.`, so the
backtracking is the explicit case split below). -/
def qNumDot : List Char → Option (Nat × List Char)
  | c1 :: c2 :: rest =>
    if isDigitC c1 then
      if isDigitC c2 then
        match rest with
        | '.' :: r => some (10 * digitVal c1 + digitVal c2, r)
        | _ => none
      else if c2 = '.' then some (digitVal c1, rest)
      else none
    else none
  | _ => none

/-- Embeds `(?:\(\s*should be\s*([A-D])\s*\))?`: the optional correction group.
Every `\s*` inside is followed by a non-whitespace literal, so maximal munch
is exact. -/
def shouldBeAt (cs : List Char) : Option (Char × List Char) :=
  match cs with
  | '(' :: r1 =>
    let r2 := (spanWs r1).2
    match litP "should be".data r2 with
    | none => none
    | some r3 =>
      let r4 := (spanWs r3).2
      match r4 with
      | c :: r5 =>
        if isAnswerLetter c then
          let r6 := (spanWs r5).2
          match r6 with
          | ')' :: r7 => some (c, r7)
          | _ => none
        else none
      | [] => none
  | _ => none

/-- Attempt `QUESTION_RE` anchored at the head of `cs`; on success return the
groups and the remainder after the match (Python `finditer` resumes there).
The trailing `\s*` is consumed into the match; if the optional group then
fails, it matches empty (no backtracking helps: `\(` is not whitespace). -/
def matchQuestionAt (cs : List Char) : Option (QMatch × List Char) :=
  match qNumDot cs with
  | none => none
  | some (n, r1) =>
    let r2 := (spanWs r1).2
    match r2 with
    | a :: d1 :: b :: d2 :: d3 :: ':' :: r3 =>
      if isUpperC a && isDigitC d1 && isUpperC b && isDigitC d2 && isDigitC d3 then
        let r4 := (spanWs r3).2
        match r4 with
        | c :: r5 =>
          if isAnswerLetter c then
            let r6 := (spanWs r5).2
            match shouldBeAt r6 with
            | some (sb, r7) =>
              some (⟨n, String.mk [a, d1, b, d2, d3], c, some sb⟩, r7)
            | none =>
              some (⟨n, String.mk [a, d1, b, d2, d3], c, none⟩, r6)
          else none
        | [] => none
      else none
    | _ => none

/-- Embeds `QUESTION_RE.finditer`: scan left to right; at a match, resume after it;
otherwise advance one character.  `fuel` bounds the recursion; every step
consumes at least one character, so `fuel = length` scans the whole input. -/
def finditerQ : Nat → List Char → List QMatch
  | 0, _ => []
  | _ + 1, [] => []
  | fuel + 1, c :: r =>
    match matchQuestionAt (c :: r) with
    | some (m, rest) => m :: finditerQ fuel rest
    | none => finditerQ fuel r

/-- The `QuestionResult` dataclass. -/
structure QuestionResult where
  number : Nat
  question_id : String
  selected : Char
  correct : Char
  is_correct : Bool
  deriving DecidableEq, Repr

/-- The loop body of `parse_questions`: one row per match, with
`correct = should_be if should_be else selected` and
`is_correct = (selected == correct)`. -/
def rowOfMatch (m : QMatch) : QuestionResult :=
  let correct := m.should_be.getD m.selected
  ⟨m.number, m.question_id, m.selected, correct, m.selected = correct⟩

/-- Sort key of `parse_questions`: ascending by `number` (stable). -/
def leNumber (a b : QuestionResult) : Bool := a.number ≤ b.number

/-- Build and sort the rows for a given list of pattern matches
(the body of `parse_questions` after `finditer`). -/
def questionRows (ms : List QMatch) : List QuestionResult :=
  pySort leNumber (ms.map rowOfMatch)

/-- Embeds `parse_questions`: all `QUESTION_RE` matches of the block, as rows,
sorted ascending by question number. -/
def parse_questions (text : List Char) : List QuestionResult :=
  questionRows (finditerQ text.length text)

/-! ## `HEADER_RE` and `split_exam_blocks`

`HEADER_RE = ^\s*.+?\s+\(PIN:\s*\d+\)\s*$` (MULTILINE).  The pattern used by
`parse_metadata` for the name/PIN line is the same with groups
`^\s*(.+?)\s+\(PIN:\s*(\d+)\)\s*$`, so one matcher serves both.
-/

/-- Index of the last `'\n'` in a character run, if any. -/
def lastNlIdx : List Char → Option Nat
  | [] => none
  | c :: r =>
    match lastNlIdx r with
    | some i => some (i + 1)
    | none => if c = '\n' then some 0 else none

/-- Embeds `\s*$` in MULTILINE mode: greedily consume whitespace; `$` holds at end of
input, else backtrack to the latest position inside the run that sits just
before a `'\n'` (the character after a maximal run is non-whitespace, hence
not `'\n'`).  Returns `(consumed, rest)`. -/
def wsDollar (cs : List Char) : Option (List Char × List Char) :=
  let w := cs.takeWhile pyIsSpace
  let r := cs.dropWhile pyIsSpace
  match r with
  | [] => some (w, [])
  | _ :: _ =>
    match lastNlIdx w with
    | some i => some (w.take i, w.drop i ++ r)
    | none => none

/-- Embeds `\s+\(PIN:\s*(\d+)\)\s*$`, the part of the header pattern after the lazy
group.  Each `\s*`/`\s+`/`\d+` is followed by a character outside its class,
so maximal munch is exact.  Returns `(consumed, pin digits, rest)`. -/
def headerTail (cs : List Char) : Option (List Char × List Char × List Char) :=
  let w1 := cs.takeWhile pyIsSpace
  let r1 := cs.dropWhile pyIsSpace
  if w1.isEmpty then none
  else
    match litP "(PIN:".data r1 with
    | none => none
    | some r2 =>
      let w2 := r2.takeWhile pyIsSpace
      let r3 := r2.dropWhile pyIsSpace
      let d := r3.takeWhile isDigitC
      let r4 := r3.dropWhile isDigitC
      if d.isEmpty then none
      else
        match r4 with
        | ')' :: r5 =>
          match wsDollar r5 with
          | some (we, rest) =>
            some (w1 ++ "(PIN:".data ++ w2 ++ d ++ ')' :: we, d, rest)
          | none => none
        | _ => none

/-- The lazy group `(.+?)` followed by `headerTail`: try the shortest
non-empty run of non-newline characters first, extending one character at a
time.  Returns `(group, tail consumed, pin digits, rest)`. -/
def lazyHeader : List Char → Option (List Char × List Char × List Char × List Char)
  | [] => none
  | c :: r =>
    if c = '\n' then none
    else
      match headerTail r with
      | some (tc, pin, rest) => some ([c], tc, pin, rest)
      | none =>
        match lazyHeader r with
        | some (nm, tc, pin, rest) => some (c :: nm, tc, pin, rest)
        | none => none

/-- The greedy leading `\s*`: try consuming the whole whitespace run first,
then give characters back one at a time (from the right).  The first argument
is the reversed run of still-consumed whitespace.  Returns
`(ws consumed, group, tail consumed, pin digits, rest)`. -/
def wsDescHeader :
    List Char → List Char → Option (List Char × List Char × List Char × List Char × List Char)
  | wrev, r =>
    match lazyHeader r with
    | some (nm, tc, pin, rest) => some (wrev.reverse, nm, tc, pin, rest)
    | none =>
      match wrev with
      | [] => none
      | c :: wrev' => wsDescHeader wrev' (c :: r)

/-- Embeds `HEADER_RE` anchored at the head of `cs` (the caller checks the `^`
line-start anchor).  Returns `(consumed, name group, pin digits, rest)`. -/
def headerMatchAt (cs : List Char) :
    Option (List Char × List Char × List Char × List Char) :=
  let w := cs.takeWhile pyIsSpace
  let r := cs.dropWhile pyIsSpace
  match wsDescHeader w.reverse r with
  | some (wk, nm, tc, pin, rest) => some (wk ++ nm ++ tc, nm, pin, rest)
  | none => none

/-- Embeds `HEADER_RE.finditer`: scan every position; `^` requires start of input or
a preceding `'\n'`; on a match record `(start, consumed)` and resume at the
match end; otherwise advance one character. -/
def headerScanAux : Nat → List Char → Nat → Bool → List (Nat × List Char)
  | 0, _, _, _ => []
  | _ + 1, [], _, _ => []
  | fuel + 1, c :: r, pos, atLS =>
    if atLS then
      match headerMatchAt (c :: r) with
      | some (consumed, _, _, rest) =>
        (pos, consumed) ::
          headerScanAux fuel rest (pos + consumed.length) (consumed.getLast? = some '\n')
      | none => headerScanAux fuel r (pos + 1) (c = '\n')
    else headerScanAux fuel r (pos + 1) (c = '\n')

/-- All `HEADER_RE` matches of the text: `(start position, matched characters)`. -/
def headerMatches (text : List Char) : List (Nat × List Char) :=
  headerScanAux text.length text 0 true

/-- The slicing loop of `split_exam_blocks`: for each start, the block runs to
the next start (or end of text), is stripped, and is dropped when empty. -/
def blocksFromStarts (text : List Char) : List Nat → List (List Char)
  | [] => []
  | [s] =>
    let b := stripPy (text.drop s)
    if b.isEmpty then [] else [b]
  | s :: s' :: rest =>
    let b := stripPy ((text.drop s).take (s' - s))
    (if b.isEmpty then [] else [b]) ++ blocksFromStarts text (s' :: rest)

/-- Embeds `split_exam_blocks`: split at header-line matches; with no match (or only
empty blocks) the whole text is a single block. -/
def split_exam_blocks (text : List Char) : List (List Char) :=
  let starts := (headerMatches text).map Prod.fst
  if starts.isEmpty then [text]
  else
    let blocks := blocksFromStarts text starts
    if blocks.isEmpty then [text] else blocks

/-! ## `parse_metadata`

Eight independent `re.search` probes; each miss leaves its field(s) absent.
-/

/-- The sparse metadata dictionary: every field optional, absent when its
search misses. -/
structure Metadata where
  candidate_name : Option String := none
  pin : Option String := none
  outcome : Option String := none
  reported_correct : Option Nat := none
  reported_total : Option Nat := none
  element : Option Nat := none
  test_number : Option String := none
  valid_from : Option String := none
  valid_to : Option String := none
  exam_started_at : Option String := none
  exam_started_by : Option String := none
  exam_graded_at : Option String := none
  exam_graded_by : Option String := none
  deriving DecidableEq, Repr

/-- Generic `re.search` scan for patterns with no `^` anchor and no word
boundary: try `matchAt` at each position, leftmost first. -/
def searchAux (matchAt : List Char → Option α) : Nat → List Char → Option α
  | 0, _ => none
  | fuel + 1, cs =>
    match matchAt cs with
    | some a => some a
    | none =>
      match cs with
      | [] => none
      | _ :: r => searchAux matchAt fuel r

/-- Embeds `re.search` for the `^`-anchored name/PIN pattern: first line start whose
`headerMatchAt` succeeds; returns `(name group, pin digits)`. -/
def headerSearchAux : Nat → List Char → Bool → Option (List Char × List Char)
  | 0, _, _ => none
  | _ + 1, [], _ => none
  | fuel + 1, c :: r, atLS =>
    if atLS then
      match headerMatchAt (c :: r) with
      | some (_, nm, pin, _) => some (nm, pin)
      | none => headerSearchAux fuel r (c = '\n')
    else headerSearchAux fuel r (c = '\n')

/-- Embeds `\s+` by maximal munch (exact whenever the next pattern element cannot
match a whitespace character). -/
def ws1Det (cs : List Char) : Option (List Char) :=
  let w := cs.takeWhile pyIsSpace
  if w.isEmpty then none else some (cs.dropWhile pyIsSpace)

/-- Embeds `(\d+)` by maximal munch: returns `(digits, rest)`, requiring at least
one digit. -/
def digits1 (cs : List Char) : Option (List Char × List Char) :=
  let d := cs.takeWhile isDigitC
  if d.isEmpty then none else some (d, cs.dropWhile isDigitC)

/-- A lazy `(.+?)` group followed by a deterministic tail: shortest non-empty
run of non-newline characters whose remainder satisfies `tail`. -/
def lazyDot (tail : List Char → Option α) : List Char → Option (List Char × α)
  | [] => none
  | c :: r =>
    if c = '\n' then none
    else
      match tail r with
      | some a => some ([c], a)
      | none =>
        match lazyDot tail r with
        | some (g, a) => some (c :: g, a)
        | none => none

/-- A greedy `\s+` followed by an arbitrary continuation: consume the whole
whitespace run first, then give back one character at a time, never fewer
than one.  First argument is the reversed run of still-consumed whitespace. -/
def wsPlusDesc (k : List Char → Option α) : List Char → List Char → Option α
  | [], _ => none
  | [_], r => k r
  | c :: wrev', r =>
    match k r with
    | some a => some a
    | none => wsPlusDesc k wrev' (c :: r)

/-- Embeds `\s+` with full greedy backtracking, applied before a continuation. -/
def ws1Desc (k : List Char → Option α) (cs : List Char) : Option α :=
  wsPlusDesc k (cs.takeWhile pyIsSpace).reverse (cs.dropWhile pyIsSpace)

/-- Embeds `Test\s+(?:Failed|Passed)\s+-\s+(\d+)\s+out of\s+(\d+)` anchored here;
returns the two numbers. -/
def testOutOfAt (cs : List Char) : Option (Nat × Nat) :=
  match litP "Test".data cs with
  | none => none
  | some r1 =>
    match ws1Det r1 with
    | none => none
    | some r2 =>
      let afterFP :=
        match litP "Failed".data r2 with
        | some r3 => some r3
        | none => litP "Passed".data r2
      match afterFP with
      | none => none
      | some r3 =>
        match ws1Det r3 with
        | none => none
        | some r4 =>
          match litP "-".data r4 with
          | none => none
          | some r5 =>
            match ws1Det r5 with
            | none => none
            | some r6 =>
              match digits1 r6 with
              | none => none
              | some (d1, r7) =>
                match ws1Det r7 with
                | none => none
                | some r8 =>
                  match litP "out of".data r8 with
                  | none => none
                  | some r9 =>
                    match ws1Det r9 with
                    | none => none
                    | some r10 =>
                      match digits1 r10 with
                      | none => none
                      | some (d2, _) => some (natOfDigits d1, natOfDigits d2)

/-- Embeds `\b(FAIL|PASS)\b` at this position, given the previous character for the
left boundary. -/
def failPassAt (prev : Option Char) (cs : List Char) : Option String :=
  let leftOk := match prev with
    | none => true
    | some p => !isWordC p
  if leftOk then
    let tryWord (w : String) : Option String :=
      match litP w.data cs with
      | some r =>
        match r with
        | [] => some w
        | c :: _ => if isWordC c then none else some w
      | none => none
    match tryWord "FAIL" with
    | some w => some w
    | none => tryWord "PASS"
  else none

/-- Embeds `re.search(r"\b(FAIL|PASS)\b")`: scan carrying the previous character. -/
def failPassSearch : Nat → Option Char → List Char → Option String
  | 0, _, _ => none
  | fuel + 1, prev, cs =>
    match failPassAt prev cs with
    | some w => some w
    | none =>
      match cs with
      | [] => none
      | c :: r => failPassSearch fuel (some c) r

/-- Embeds `Element\s+(\d+)` anchored here. -/
def elementAt (cs : List Char) : Option Nat :=
  match litP "Element".data cs with
  | none => none
  | some r1 =>
    match ws1Det r1 with
    | none => none
    | some r2 =>
      match digits1 r2 with
      | none => none
      | some (d, _) => some (natOfDigits d)

/-- Embeds `Test\s+#(\d+)` anchored here; the group is kept as a string. -/
def testNumAt (cs : List Char) : Option String :=
  match litP "Test".data cs with
  | none => none
  | some r1 =>
    match ws1Det r1 with
    | none => none
    | some r2 =>
      match litP "#".data r2 with
      | none => none
      | some r3 =>
        match digits1 r3 with
        | none => none
        | some (d, _) => some (String.mk d)

/-- Embeds `valid\s+(.+?)\s+—\s+(.+?)\n` anchored here; both groups are stripped by
the caller's `.strip()`. -/
def validAt (cs : List Char) : Option (String × String) :=
  match litP "valid".data cs with
  | none => none
  | some r1 =>
    let tail1 (r : List Char) : Option (List Char) :=
      match ws1Det r with
      | none => none
      | some r2 =>
        match litP "—".data r2 with
        | none => none
        | some r3 =>
          match ws1Det r3 with
          | none => none
          | some r4 =>
            let g2 := r4.takeWhile (fun c => !(c = '\n'))
            let r5 := r4.dropWhile (fun c => !(c = '\n'))
            if g2.isEmpty then none
            else
              match r5 with
              | '\n' :: _ => some g2
              | _ => none
    match ws1Desc (lazyDot tail1) r1 with
    | some (g1, g2) => some (String.mk (stripPy g1), String.mk (stripPy g2))
    | none => none

/-- Embeds `<lit>\s+(.+?)\s+by\s+(\S+)` anchored here (for `Exam started at` and
`Exam graded at`); group 1 is stripped by the caller's `.strip()`. -/
def examAtByAt (lit : List Char) (cs : List Char) : Option (String × String) :=
  match litP lit cs with
  | none => none
  | some r1 =>
    let tail1 (r : List Char) : Option (List Char) :=
      match ws1Det r with
      | none => none
      | some r2 =>
        match litP "by".data r2 with
        | none => none
        | some r3 =>
          match ws1Det r3 with
          | none => none
          | some r4 =>
            let g2 := r4.takeWhile (fun c => !pyIsSpace c)
            if g2.isEmpty then none else some g2
    match ws1Desc (lazyDot tail1) r1 with
    | some (g1, g2) => some (String.mk (stripPy g1), String.mk g2)
    | none => none

/-- Embeds `parse_metadata`: run the eight targeted searches; a miss omits the
field(s). -/
def parse_metadata (text : List Char) : Metadata :=
  let fuel := text.length + 1
  let nmPin := headerSearchAux fuel text true
  let outcome := failPassSearch fuel none text
  let repd := searchAux testOutOfAt fuel text
  let elem := searchAux elementAt fuel text
  let tnum := searchAux testNumAt fuel text
  let valid := searchAux validAt fuel text
  let started := searchAux (examAtByAt "Exam started at".data) fuel text
  let graded := searchAux (examAtByAt "Exam graded at".data) fuel text
  { candidate_name := nmPin.map (fun p => String.mk (stripPy p.1))
    pin := nmPin.map (fun p => String.mk p.2)
    outcome := outcome
    reported_correct := repd.map Prod.fst
    reported_total := repd.map Prod.snd
    element := elem
    test_number := tnum
    valid_from := valid.map Prod.fst
    valid_to := valid.map Prod.snd
    exam_started_at := started.map Prod.fst
    exam_started_by := started.map Prod.snd
    exam_graded_at := graded.map Prod.fst
    exam_graded_by := graded.map Prod.snd }

/-! ## `build_exam_output` -/

/-- The per-exam `summary` dictionary. -/
structure ExamSummary where
  total_questions_parsed : Nat
  correct : Nat
  incorrect : Nat
  missing_numbers : List Nat
  duplicate_numbers : List Nat
  unexpected_numbers : List Nat
  deriving DecidableEq, Repr

/-- One exam block's output record. -/
structure ExamOutput where
  source : String
  metadata : Metadata
  summary : ExamSummary
  questions : List QuestionResult
  deriving DecidableEq, Repr

/-- The duplicate-collection loop: `seen` is the set of numbers seen so far
(modelled as an insertion-ordered list with set membership), `dups` collects
each number the first time it is seen again. -/
def dupScan : List Nat → List Nat → List Nat → List Nat × List Nat
  | [], seen, dups => (seen, dups)
  | n :: rest, seen, dups =>
    let dups' := if n ∈ seen ∧ n ∉ dups then dups ++ [n] else dups
    let seen' := if n ∈ seen then seen else seen ++ [n]
    dupScan rest seen' dups'

/-- Python `max` over a non-empty list (the `[]` case is unreachable at the
call site, where `numbers` is non-empty). -/
def pyMax : List Nat → Nat
  | [] => 0
  | n :: r => r.foldl Nat.max n

/-- Embeds `expected_total = reported_total if isinstance(reported_total, int) else
max(numbers)`.  In this typed embedding the `isinstance` test is presence of
the field (`parse_metadata` only ever stores an int there). -/
def expected_total (reported_total : Option Nat) (numbers : List Nat) : Nat :=
  match reported_total with
  | some t => t
  | none => pyMax numbers

/-- Ascending `Nat` comparison for `sorted(seen)`. -/
def leNat (a b : Nat) : Bool := a ≤ b

/-- The integrity checks of `build_exam_output` (lines 210–231): with no
numbers all three lists stay empty; otherwise collect duplicates, pick
`expected_total`, list the missing numbers of `1..expected_total`, and the
observed numbers outside that range in ascending order. -/
def examChecks (numbers : List Nat) (reported_total : Option Nat) :
    List Nat × List Nat × List Nat :=
  if numbers.isEmpty then ([], [], [])
  else
    let sd := dupScan numbers [] []
    let seen := sd.1
    let duplicates := sd.2
    let tot := expected_total reported_total numbers
    let missing := (List.range' 1 tot).filter (fun n => !(n ∈ seen : Bool))
    let unexpected := (pySort leNat seen).filter (fun n => n < 1 || tot < n)
    (missing, duplicates, unexpected)

/-- Embeds `build_exam_output`: parse the block's questions and metadata and package
the summary.  `os.path.abspath` is modelled as the identity on the given path
(path canonicalisation is environment state outside this embedding). -/
def build_exam_output (text : List Char) (source_path : String) : ExamOutput :=
  let questions := parse_questions text
  let metadata := parse_metadata text
  let total := questions.length
  let correct := (questions.filter (fun q => q.is_correct)).length
  let incorrect := total - correct
  let numbers := questions.map (fun q => q.number)
  let checks := examChecks numbers metadata.reported_total
  { source := source_path
    metadata := metadata
    summary :=
      { total_questions_parsed := total
        correct := correct
        incorrect := incorrect
        missing_numbers := checks.1
        duplicate_numbers := checks.2.1
        unexpected_numbers := checks.2.2 }
    questions := questions }

/-! ## `build_output` -/

/-- The multi-exam `summary` dictionary. -/
structure MultiSummary where
  total_exams_parsed : Nat
  total_questions_parsed : Nat
  correct : Nat
  incorrect : Nat
  deriving DecidableEq, Repr

/-- A file-level record: either a single exam's record unchanged (flat shape,
no `exams` key) or the `{source, metadata, summary, exams}` dictionary. -/
inductive FileOutput where
  | single (exam : ExamOutput)
  | multi (source : String) (metadata : Metadata) (summary : MultiSummary)
      (exams : List ExamOutput)
  deriving DecidableEq, Repr

/-- Embeds `build_output`: one block gives the flat shape; several blocks give the
aggregated shape, lifting `candidate_name`/`pin` from the first exam. -/
def build_output (text : List Char) (source_path : String) : FileOutput :=
  let blocks := split_exam_blocks text
  if blocks.length = 1 then
    FileOutput.single (build_exam_output (blocks.headD []) source_path)
  else
    let exams := blocks.map (fun b => build_exam_output b source_path)
    let total_questions := (exams.map (fun e => e.summary.total_questions_parsed)).sum
    let total_correct := (exams.map (fun e => e.summary.correct)).sum
    let total_incorrect := (exams.map (fun e => e.summary.incorrect)).sum
    let first_meta : Metadata :=
      match exams.head? with
      | some e => e.metadata
      | none => {}
    let top_metadata : Metadata :=
      { candidate_name := first_meta.candidate_name, pin := first_meta.pin }
    FileOutput.multi source_path top_metadata
      { total_exams_parsed := exams.length
        total_questions_parsed := total_questions
        correct := total_correct
        incorrect := total_incorrect }
      exams

/-- Embeds `extract_exam_list`: unwrap `exams` when present, else the record itself
is the one exam. -/
def extract_exam_list : FileOutput → List ExamOutput
  | .single e => [e]
  | .multi _ _ _ exams => exams

/-- Embeds `data.get("source", "")` of a file record. -/
def fileSource : FileOutput → String
  | .single e => e.source
  | .multi s _ _ _ => s

/-- Embeds `summary.get("total_questions_parsed", 0)` of a file record. -/
def fileSummaryQuestions : FileOutput → Nat
  | .single e => e.summary.total_questions_parsed
  | .multi _ _ s _ => s.total_questions_parsed

/-- Embeds `summary.get("correct", 0)` of a file record. -/
def fileSummaryCorrect : FileOutput → Nat
  | .single e => e.summary.correct
  | .multi _ _ s _ => s.correct

/-- Embeds `summary.get("incorrect", 0)` of a file record. -/
def fileSummaryIncorrect : FileOutput → Nat
  | .single e => e.summary.incorrect
  | .multi _ _ s _ => s.incorrect

/-- Embeds `summary.get("total_exams_parsed", 0)` of a file record: a flat record's
summary has no such key, so the default `0` applies. -/
def fileSummaryExams : FileOutput → Nat
  | .single _ => 0
  | .multi _ _ s _ => s.total_exams_parsed

/-! ## Flattened rows and CSV -/

/-- One flattened question-level row of `flatten_questions_for_csv`.
`element` is `""` (here `none`) when absent from the exam's metadata. -/
structure Row where
  source : String
  exam_index_in_source : Nat
  test_number : String
  element : Option Nat
  number : Nat
  question_id : String
  selected : Char
  correct : Char
  is_correct : Bool
  deriving DecidableEq, Repr

/-- Embeds `enumerate(exams, start=1)`. -/
def enumFrom : Nat → List α → List (Nat × α)
  | _, [] => []
  | i, x :: r => (i, x) :: enumFrom (i + 1) r

/-- Embeds `flatten_questions_for_csv`: one row per question of every exam of the
record, carrying the source, the 1-based exam index, and the exam's
`test_number`/`element` when present. -/
def flatten_questions_for_csv (data : FileOutput) : List Row :=
  let source := fileSource data
  let exams := extract_exam_list data
  (enumFrom 1 exams).flatMap fun ie =>
    let exam := ie.2
    let test_number := exam.metadata.test_number.getD ""
    let element := exam.metadata.element
    exam.questions.map fun q =>
      { source := source
        exam_index_in_source := ie.1
        test_number := test_number
        element := element
        number := q.number
        question_id := q.question_id
        selected := q.selected
        correct := q.correct
        is_correct := q.is_correct }

/-- Embeds `write_csv` against an explicit file-system model (`path ↦ contents`):
an empty row collection writes nothing at all; otherwise the header is the
key list of the first row and each row is rendered in header order (missing
keys render as the empty-string `restval`).  Rows are ordered key/value
lists, mirroring Python dicts. -/
def write_csv (fs : String → Option (List (List String))) (path : String)
    (rows : List (List (String × String))) : String → Option (List (List String)) :=
  if rows.isEmpty then fs
  else
    let fieldnames := (rows.headD []).map Prod.fst
    let body := rows.map fun row =>
      fieldnames.map fun k => ((row.find? (fun kv => kv.1 = k)).map Prod.snd).getD ""
    fun p => if p = path then some (fieldnames :: body) else fs p

/-! ## Grouped statistics -/

/-- The parts of `parse_question_id_parts`. -/
structure QidParts where
  pool : String
  sectionPart : String
  subsectionPart : String
  deriving DecidableEq, Repr

/-- Embeds `QUESTION_ID_PARTS_RE = ^([A-Z])(\d)([A-Z])\d{2}$` via `re.match`: the
whole string must be letter, digit, letter, two digits — `$` (without
MULTILINE) also accepts exactly one trailing `'\n'`. -/
def parse_question_id_parts (question_id : String) : QidParts :=
  match question_id.data with
  | a :: d :: b :: d1 :: d2 :: rest =>
    if isUpperC a && isDigitC d && isUpperC b && isDigitC d1 && isDigitC d2
        && (rest = [] || rest = ['\n']) then
      ⟨String.mk [a], String.mk [d], String.mk [b]⟩
    else ⟨"", "", ""⟩
  | _ => ⟨"", "", ""⟩

/-- Round half to even (Python's `round` tie-breaking), on exact rationals. -/
def rndHalfEven (q : ℚ) : ℤ :=
  let f := q.floor
  let r := q - (f : ℚ)
  if r < 1 / 2 then f
  else if 1 / 2 < r then f + 1
  else if f % 2 = 0 then f else f + 1

/-- Embeds `round(x, 4)`: round to four decimal places, half to even.  Python rounds
the binary float; this embedding rounds the exact rational. -/
def round4 (q : ℚ) : ℚ := (rndHalfEven (q * 10000) : ℚ) / 10000

/-- The accumulator entry of `compute_group_stats` before `accuracy` is
attached. -/
structure GAcc where
  group_key : String
  attempts : Nat
  correct : Nat
  incorrect : Nat
  deriving DecidableEq, Repr

/-- One row of a grouped-statistics table (the Python dict stores the group
key under the table's `key_name`). -/
structure GStat where
  group_key : String
  attempts : Nat
  correct : Nat
  incorrect : Nat
  accuracy : ℚ
  deriving DecidableEq, Repr

/-- Embeds `stats_by_key.setdefault(...)` followed by the increments, on an
insertion-ordered association list (Python dicts preserve insertion order). -/
def statsUpd (gk : String) (isC : Bool) : List GAcc → List GAcc
  | [] => [⟨gk, 1, if isC then 1 else 0, if isC then 0 else 1⟩]
  | a :: rest =>
    if a.group_key = gk then
      { a with
        attempts := a.attempts + 1
        correct := if isC then a.correct + 1 else a.correct
        incorrect := if isC then a.incorrect else a.incorrect + 1 } :: rest
    else a :: statsUpd gk isC rest

/-- Attach `accuracy`: `correct / attempts` rounded to 4 places, `0.0` when
`attempts` is `0`. -/
def gAccRow (a : GAcc) : GStat :=
  ⟨a.group_key, a.attempts, a.correct, a.incorrect,
    if a.attempts = 0 then 0 else round4 ((a.correct : ℚ) / (a.attempts : ℚ))⟩

/-- Python string `<`: strict lexicographic order on code points. -/
def lexLtChars : List Char → List Char → Bool
  | [], [] => false
  | [], _ :: _ => true
  | _ :: _, [] => false
  | c :: cs, d :: ds =>
    if c.toNat < d.toNat then true
    else if d.toNat < c.toNat then false
    else lexLtChars cs ds

/-- Embeds Python `<` on strings. -/
def pyStrLt (a b : String) : Bool := lexLtChars a.data b.data

/-- Embeds Python `<=` on strings (`a <= b ↔ ¬ b < a` in a total order). -/
def pyStrLe (a b : String) : Bool := !(pyStrLt b a)

/-- Ascending lexicographic comparison of the Python sort-key tuple
`(accuracy, -attempts, string key)`; negating `attempts` is expressed by
comparing the attempts in flipped order. -/
def tupLe (x y : ℚ × Nat × String) : Bool :=
  if x.1 < y.1 then true
  else if y.1 < x.1 then false
  else if y.2.1 < x.2.1 then true
  else if x.2.1 < y.2.1 then false
  else pyStrLe x.2.2 y.2.2

/-- The sort comparison `(r["accuracy"], -int(r["attempts"]), r[key_name])`
for the grouped tables. -/
def gLeB (a b : GStat) : Bool :=
  tupLe (a.accuracy, a.attempts, a.group_key) (b.accuracy, b.attempts, b.group_key)

/-- Embeds `compute_group_stats`: accumulate per group key (rows with an empty
`question_id` or an empty derived key are skipped), attach accuracy, and sort
by `(accuracy, -attempts, group key)`.  `key_name` only names the dictionary
key under which `group_key` is stored. -/
def compute_group_stats (rows : List Row) (key_name : String)
    (make_group_key : QidParts → String) : List GStat :=
  let accs := rows.foldl
    (fun acc row =>
      if row.question_id = "" then acc
      else
        let parts := parse_question_id_parts row.question_id
        let gk := make_group_key parts
        if gk = "" then acc
        else statsUpd gk row.is_correct acc)
    []
  let _ := key_name
  pySort gLeB (accs.map gAccRow)

/-- One row of the per-question statistics table. -/
structure QStat where
  question_id : String
  attempts : Nat
  correct : Nat
  incorrect : Nat
  accuracy : ℚ
  deriving DecidableEq, Repr

/-- The per-question accumulator update (same shape as `statsUpd`). -/
def qStatsUpd (qid : String) (isC : Bool) : List GAcc → List GAcc
  | [] => [⟨qid, 1, if isC then 1 else 0, if isC then 0 else 1⟩]
  | a :: rest =>
    if a.group_key = qid then
      { a with
        attempts := a.attempts + 1
        correct := if isC then a.correct + 1 else a.correct
        incorrect := if isC then a.incorrect else a.incorrect + 1 } :: rest
    else a :: qStatsUpd qid isC rest

/-- Attach `accuracy` to a per-question accumulator entry. -/
def qAccRow (a : GAcc) : QStat :=
  ⟨a.group_key, a.attempts, a.correct, a.incorrect,
    if a.attempts = 0 then 0 else round4 ((a.correct : ℚ) / (a.attempts : ℚ))⟩

/-- The sort comparison `(accuracy, -attempts, question_id)` for the
per-question table. -/
def qLeB (a b : QStat) : Bool :=
  tupLe (a.accuracy, a.attempts, a.question_id) (b.accuracy, b.attempts, b.question_id)

/-- Embeds `compute_question_stats`: accumulate per exact question id and sort by
`(accuracy, -attempts, question_id)`. -/
def compute_question_stats (rows : List Row) : List QStat :=
  let accs := rows.foldl
    (fun acc row =>
      if row.question_id = "" then acc
      else qStatsUpd row.question_id row.is_correct acc)
    []
  pySort qLeB (accs.map qAccRow)

/-- The section key: pool letter + section digit, empty when either is. -/
def sectionKey (p : QidParts) : String :=
  if p.pool ≠ "" ∧ p.sectionPart ≠ "" then p.pool ++ p.sectionPart else ""

/-- The subsection key: pool + section + subsection, empty when any is. -/
def subsectionKey (p : QidParts) : String :=
  if p.pool ≠ "" ∧ p.sectionPart ≠ "" ∧ p.subsectionPart ≠ "" then
    p.pool ++ p.sectionPart ++ p.subsectionPart
  else ""

/-- Embeds `compute_section_stats`. -/
def compute_section_stats (rows : List Row) : List GStat :=
  compute_group_stats rows "section_id" sectionKey

/-- Embeds `compute_subsection_stats`. -/
def compute_subsection_stats (rows : List Row) : List GStat :=
  compute_group_stats rows "subsection_id" subsectionKey

/-! ## `build_multi_file_output` -/

/-- The aggregate `summary` of a multi-file run. -/
structure AggSummary where
  total_input_files : Nat
  total_exams_parsed : Nat
  total_questions_parsed : Nat
  correct : Nat
  incorrect : Nat
  deriving DecidableEq, Repr

/-- The whole multi-file aggregate object. -/
structure MultiFileOutput where
  sources : List String
  summary : AggSummary
  question_stats : List QStat
  section_stats : List GStat
  subsection_stats : List GStat
  results : List FileOutput
  deriving DecidableEq, Repr

/-- The accumulation loop of `build_multi_file_output`: rows are flattened
and extended in order; `all_exams` adds the *normalised* exam count; the
other three totals read each file's own summary (absent key → 0). -/
def mfAccum : List FileOutput → List Row × Nat × Nat × Nat × Nat →
    List Row × Nat × Nat × Nat × Nat
  | [], acc => acc
  | out :: rest, (rows, ex, qs, c, i) =>
    mfAccum rest
      (rows ++ flatten_questions_for_csv out,
        ex + (extract_exam_list out).length,
        qs + fileSummaryQuestions out,
        c + fileSummaryCorrect out,
        i + fileSummaryIncorrect out)

/-- Embeds `build_multi_file_output`: accumulate across the file records, then
attach the three statistics tables and the raw results. -/
def build_multi_file_output (outputs : List FileOutput) : MultiFileOutput :=
  let acc := mfAccum outputs ([], 0, 0, 0, 0)
  let all_rows := acc.1
  { sources := outputs.map fileSource
    summary :=
      { total_input_files := outputs.length
        total_exams_parsed := acc.2.1
        total_questions_parsed := acc.2.2.1
        correct := acc.2.2.2.1
        incorrect := acc.2.2.2.2 }
    question_stats := compute_question_stats all_rows
    section_stats := compute_section_stats all_rows
    subsection_stats := compute_subsection_stats all_rows
    results := outputs }

/-- The `exams` list of a file record, when the key is present. -/
def examsList? : FileOutput → Option (List ExamOutput)
  | .single _ => none
  | .multi _ _ _ exams => some exams

/-! # Theorems -/

/-! ## Generic facts about `pySort` -/

theorem insertOrd_perm (le : α → α → Bool) (x : α) (l : List α) :
    (insertOrd le x l).Perm (x :: l) := by
  induction l with
  | nil => exact List.Perm.refl _
  | cons y l ih =>
    by_cases h : le y x
    · simpa [insertOrd, h] using (ih.cons y).trans (List.Perm.swap x y l)
    · have h' : le y x = false := by simpa using h
      simp [insertOrd, h']

theorem foldl_insertOrd_perm (le : α → α → Bool) :
    ∀ (l acc : List α), (l.foldl (fun a x => insertOrd le x a) acc).Perm (acc ++ l)
  | [], acc => by simp
  | x :: l, acc => by
    simp only [List.foldl_cons]
    exact (foldl_insertOrd_perm le l (insertOrd le x acc)).trans
      (((insertOrd_perm le x acc).append_right l).trans List.perm_middle.symm)

theorem pySort_perm (le : α → α → Bool) (l : List α) : (pySort le l).Perm l := by
  simpa [pySort] using foldl_insertOrd_perm le l []

theorem mem_pySort {le : α → α → Bool} {l : List α} {a : α} :
    a ∈ pySort le l ↔ a ∈ l :=
  (pySort_perm le l).mem_iff

theorem pairwise_insertOrd (le : α → α → Bool)
    (htr : ∀ a b c, le a b = true → le b c = true → le a c = true)
    (hto : ∀ a b, le a b = true ∨ le b a = true) (x : α) :
    ∀ l : List α, l.Pairwise (fun a b => le a b = true) →
      (insertOrd le x l).Pairwise (fun a b => le a b = true)
  | [], _ => by simp [insertOrd]
  | y :: l, h => by
    rcases List.pairwise_cons.mp h with ⟨hy, hl⟩
    by_cases hyx : le y x = true
    · have hrec := pairwise_insertOrd le htr hto x l hl
      have hmem : ∀ z ∈ insertOrd le x l, le y z = true := by
        intro z hz
        rcases (by simpa using (insertOrd_perm le x l).mem_iff.mp hz : z = x ∨ z ∈ l) with
          rfl | hzl
        · exact hyx
        · exact hy z hzl
      simp only [insertOrd, hyx, if_true]
      exact List.pairwise_cons.mpr ⟨hmem, hrec⟩
    · have hxy : le x y = true := (hto x y).resolve_right hyx
      have hyx' : le y x = false := by simpa using hyx
      simp only [insertOrd, hyx', Bool.false_eq_true, if_false]
      refine List.pairwise_cons.mpr ⟨?_, h⟩
      intro z hz
      rcases List.mem_cons.mp hz with rfl | hzl
      · exact hxy
      · exact htr x y z hxy (hy z hzl)

theorem pairwise_pySort (le : α → α → Bool)
    (htr : ∀ a b c, le a b = true → le b c = true → le a c = true)
    (hto : ∀ a b, le a b = true ∨ le b a = true) (l : List α) :
    (pySort le l).Pairwise (fun a b => le a b = true) := by
  suffices h : ∀ (l acc : List α), acc.Pairwise (fun a b => le a b = true) →
      (l.foldl (fun a x => insertOrd le x a) acc).Pairwise (fun a b => le a b = true) by
    exact h l [] (by simp)
  intro l
  induction l with
  | nil => intro acc hacc; simpa using hacc
  | cons x l ih =>
    intro acc hacc
    simp only [List.foldl_cons]
    exact ih _ (pairwise_insertOrd le htr hto x acc hacc)

/-! ## Facts about `parse_questions` -/

theorem digitVal_le_nine {c : Char} (h : isDigitC c = true) : digitVal c ≤ 9 := by
  simp only [isDigitC, Bool.and_eq_true, decide_eq_true_eq] at h
  simp only [digitVal]
  omega

theorem qNumDot_le {cs : List Char} {n : Nat} {r : List Char}
    (h : qNumDot cs = some (n, r)) : n ≤ 99 := by
  match cs with
  | [] => simp [qNumDot] at h
  | [c1] => simp [qNumDot] at h
  | c1 :: c2 :: rest =>
    simp only [qNumDot] at h
    by_cases h1 : isDigitC c1
    · rw [if_pos h1] at h
      by_cases h2 : isDigitC c2
      · rw [if_pos h2] at h
        match rest with
        | [] => simp at h
        | c3 :: r3 =>
          by_cases h3 : c3 = '.'
          · subst h3
            simp only [Option.some.injEq, Prod.mk.injEq] at h
            have b1 := digitVal_le_nine h1
            have b2 := digitVal_le_nine h2
            omega
          · have : (match c3 :: r3 with
                | '.' :: r => some (10 * digitVal c1 + digitVal c2, r)
                | _ => none) = (none : Option (Nat × List Char)) := by
              cases c3; simp_all
            rw [this] at h
            simp at h
      · rw [if_neg h2] at h
        by_cases h3 : c2 = '.'
        · rw [if_pos h3] at h
          simp only [Option.some.injEq, Prod.mk.injEq] at h
          have b1 := digitVal_le_nine h1
          omega
        · rw [if_neg h3] at h
          simp at h
    · rw [if_neg h1] at h
      simp at h

theorem shouldBeAt_letter {cs : List Char} {c : Char} {r : List Char}
    (h : shouldBeAt cs = some (c, r)) : isAnswerLetter c = true := by
  unfold shouldBeAt at h
  split at h
  · rename_i r1
    dsimp only [] at h
    split at h
    · simp at h
    · rename_i r3 _
      split at h
      · rename_i c' r5
        split at h
        · rename_i hlet
          split at h
          · simp only [Option.some.injEq, Prod.mk.injEq] at h
            obtain ⟨rfl, -⟩ := h
            exact hlet
          · simp at h
        · simp at h
      · simp at h
  · simp at h

theorem matchQuestionAt_spec {cs : List Char} {m : QMatch} {rest : List Char}
    (h : matchQuestionAt cs = some (m, rest)) :
    m.number ≤ 99 ∧ isAnswerLetter m.selected = true ∧
      ∀ c, m.should_be = some c → isAnswerLetter c = true := by
  unfold matchQuestionAt at h
  split at h
  · simp at h
  · rename_i n r1 _
    have hn : n ≤ 99 := qNumDot_le (by assumption)
    dsimp only [] at h
    split at h
    · rename_i a d1 b d2 d3 r3
      split at h
      · split at h
        · rename_i c r5
          split at h
          · rename_i hlet
            split at h
            · rename_i sb r7 hsb
              simp only [Option.some.injEq, Prod.mk.injEq] at h
              obtain ⟨hm, -⟩ := h
              subst hm
              refine ⟨hn, hlet, ?_⟩
              intro c' hc'
              simp only [Option.some.injEq] at hc'
              exact hc' ▸ shouldBeAt_letter hsb
            · simp only [Option.some.injEq, Prod.mk.injEq] at h
              obtain ⟨hm, -⟩ := h
              subst hm
              exact ⟨hn, hlet, by simp⟩
          · simp at h
        · simp at h
      · simp at h
    · simp at h

theorem finditerQ_mem : ∀ (fuel : Nat) (cs : List Char) {m : QMatch},
    m ∈ finditerQ fuel cs → ∃ cs' rest, matchQuestionAt cs' = some (m, rest) := by
  intro fuel
  induction fuel with
  | zero => intro cs m h; simp [finditerQ] at h
  | succ fuel ih =>
    intro cs m h
    match cs with
    | [] => simp [finditerQ] at h
    | c :: r =>
      simp only [finditerQ] at h
      cases hm : matchQuestionAt (c :: r) with
      | none =>
        rw [hm] at h
        exact ih r h
      | some p =>
        obtain ⟨m', rest⟩ := p
        rw [hm] at h
        rcases List.mem_cons.mp h with rfl | h2
        · exact ⟨c :: r, rest, hm⟩
        · exact ih rest h2

theorem leNumber_trans : ∀ a b c : QuestionResult,
    leNumber a b = true → leNumber b c = true → leNumber a c = true := by
  intro a b c
  simp only [leNumber, decide_eq_true_eq]
  omega

theorem leNumber_total : ∀ a b : QuestionResult,
    leNumber a b = true ∨ leNumber b a = true := by
  intro a b
  simp only [leNumber, decide_eq_true_eq]
  omega

theorem questionRows_sorted (ms : List QMatch) :
    (questionRows ms).Pairwise (fun a b => a.number ≤ b.number) := by
  have h := pairwise_pySort leNumber leNumber_trans leNumber_total (ms.map rowOfMatch)
  exact h.imp (by intro a b hab; simpa [leNumber] using hab)

theorem mem_questionRows {ms : List QMatch} {q : QuestionResult} :
    q ∈ questionRows ms ↔ ∃ m ∈ ms, rowOfMatch m = q := by
  simp [questionRows, mem_pySort, List.mem_map]

theorem isAnswerLetter_mem {c : Char} (h : isAnswerLetter c = true) :
    c ∈ (['A', 'B', 'C', 'D'] : List Char) := by
  simp only [isAnswerLetter, Bool.or_eq_true, decide_eq_true_eq] at h
  simpa using or_assoc.mp (or_assoc.mp h)

theorem rowOfMatch_number (m : QMatch) : (rowOfMatch m).number = m.number := rfl

/-- C10: every parsed row has a one- or two-digit question number (so
`0 ≤ number ≤ 99`, and `number = 0` is attainable, as the second conjunct
shows concretely), and `selected` and `correct` are single letters from
`{A, B, C, D}`. -/
theorem c10_parsed_row_ranges :
    (∀ (text : List Char) (q : QuestionResult), q ∈ parse_questions text →
      q.number ≤ 99 ∧ q.selected ∈ (['A', 'B', 'C', 'D'] : List Char) ∧
        q.correct ∈ (['A', 'B', 'C', 'D'] : List Char)) ∧
      parse_questions "0. T1A01: A".data =
        [⟨0, "T1A01", 'A', 'A', true⟩] := by
  constructor
  · intro text q hq
    obtain ⟨m, hm, hq'⟩ := mem_questionRows.mp hq
    subst hq'
    obtain ⟨cs', rest, hmat⟩ := finditerQ_mem _ _ hm
    obtain ⟨h99, hsel, hsb⟩ := matchQuestionAt_spec hmat
    refine ⟨h99, isAnswerLetter_mem hsel, ?_⟩
    cases hc : m.should_be with
    | none =>
      have : (rowOfMatch m).correct = m.selected := by simp [rowOfMatch, hc]
      rw [this]
      exact isAnswerLetter_mem hsel
    | some c =>
      have : (rowOfMatch m).correct = c := by simp [rowOfMatch, hc]
      rw [this]
      exact isAnswerLetter_mem (hsb c hc)
  · decide

/-- Witness for C10 at the concrete block `"0. T1A01: A"`. -/
theorem c10_parsed_row_ranges_witness :
    (⟨0, "T1A01", 'A', 'A', true⟩ : QuestionResult).number ≤ 99 ∧
      (⟨0, "T1A01", 'A', 'A', true⟩ : QuestionResult).selected ∈
        (['A', 'B', 'C', 'D'] : List Char) ∧
      (⟨0, "T1A01", 'A', 'A', true⟩ : QuestionResult).correct ∈
        (['A', 'B', 'C', 'D'] : List Char) :=
  c10_parsed_row_ranges.1 "0. T1A01: A".data _ (by decide)

/-- C7: for every row produced by the question parser, `is_correct` holds
exactly when `selected = correct`, and the row arises from a pattern match
whose `correct` is the `(should be X)` letter when present and `selected`
otherwise. -/
theorem c7_is_correct_iff :
    ∀ (text : List Char) (q : QuestionResult), q ∈ parse_questions text →
      (q.is_correct = true ↔ q.selected = q.correct) ∧
        ∃ m ∈ finditerQ text.length text, rowOfMatch m = q ∧
          q.correct = m.should_be.getD m.selected := by
  intro text q hq
  obtain ⟨m, hm, hq'⟩ := mem_questionRows.mp hq
  subst hq'
  refine ⟨?_, m, hm, rfl, rfl⟩
  simp [rowOfMatch]

/-- Witness for C7 at the concrete block `"17. T5B04: D (should be A)"`. -/
theorem c7_is_correct_iff_witness :
    ((⟨17, "T5B04", 'D', 'A', false⟩ : QuestionResult).is_correct = true ↔
      (⟨17, "T5B04", 'D', 'A', false⟩ : QuestionResult).selected =
        (⟨17, "T5B04", 'D', 'A', false⟩ : QuestionResult).correct) ∧
      ∃ m ∈ finditerQ "17. T5B04: D (should be A)".data.length
          "17. T5B04: D (should be A)".data,
        rowOfMatch m = ⟨17, "T5B04", 'D', 'A', false⟩ ∧
          (⟨17, "T5B04", 'D', 'A', false⟩ : QuestionResult).correct =
            m.should_be.getD m.selected :=
  c7_is_correct_iff "17. T5B04: D (should be A)".data _ (by decide)

/-- C2 as stated is false: a block with a duplicated question number yields a
row list that is not strictly ascending by `number` (and, with distinct ids
on the duplicated number, not invariant under permuting the matches). -/
theorem c2_counterexample :
    ¬ (parse_questions "5. T1A01: A 5. T1A02: B".data).Pairwise
        (fun a b => a.number < b.number) := by decide

/-- C2 amended: the parser's output is sorted (weakly) ascending by `number`,
and the sorted row list is invariant under permutations of the pattern-match
order whenever the match numbers are pairwise distinct (with duplicated
numbers the stable sort preserves input order among equals). -/
theorem c2_amended_sorted_and_perm :
    (∀ text : List Char,
      (parse_questions text).Pairwise (fun a b => a.number ≤ b.number)) ∧
      ∀ ms1 ms2 : List QMatch, ms1.Perm ms2 → (ms1.map QMatch.number).Nodup →
        questionRows ms1 = questionRows ms2 := by
  constructor
  · intro text
    exact questionRows_sorted _
  · intro ms1 ms2 hperm hnd
    haveI : IsAntisymm QuestionResult (fun a b => a.number < b.number) :=
      ⟨fun a b hab hba => absurd hba (by omega)⟩
    have hmapeq : ∀ ms : List QMatch,
        (ms.map rowOfMatch).map (fun q => q.number) = ms.map QMatch.number := by
      intro ms
      rw [List.map_map]
      rfl
    have hstrict : ∀ (ms : List QMatch), (ms.map QMatch.number).Nodup →
        (questionRows ms).Pairwise (fun a b => a.number < b.number) := by
      intro ms hnd'
      have hsortperm : ((questionRows ms).map (fun q => q.number)).Perm
          (ms.map QMatch.number) := by
        rw [← hmapeq ms]
        exact (pySort_perm leNumber (ms.map rowOfMatch)).map _
      have hnodup : ((questionRows ms).map (fun q => q.number)).Nodup :=
        hsortperm.nodup_iff.mpr hnd'
      have hne : (questionRows ms).Pairwise (fun a b => a.number ≠ b.number) :=
        List.pairwise_map.mp hnodup
      exact ((questionRows_sorted ms).and hne).imp fun h =>
        lt_of_le_of_ne h.1 h.2
    have hnd2 : (ms2.map QMatch.number).Nodup :=
      (hperm.map QMatch.number).nodup_iff.mp hnd
    have hp : (questionRows ms1).Perm (questionRows ms2) :=
      (pySort_perm leNumber (ms1.map rowOfMatch)).trans
        ((hperm.map rowOfMatch).trans (pySort_perm leNumber (ms2.map rowOfMatch)).symm)
    exact List.eq_of_perm_of_sorted hp (hstrict ms1 hnd) (hstrict ms2 hnd2)

/-! ## Facts about the integrity checks -/

theorem mem_updSeen (m : Nat) (seen : List Nat) (n : Nat) :
    (n ∈ (if m ∈ seen then seen else seen ++ [m])) ↔ n ∈ seen ∨ n = m := by
  by_cases hm : m ∈ seen
  · simp only [if_pos hm]
    constructor
    · exact Or.inl
    · rintro (h | rfl)
      · exact h
      · exact hm
  · simp [if_neg hm, List.mem_append]

theorem updSeen_sub (m : Nat) (seen : List Nat) :
    seen ⊆ (if m ∈ seen then seen else seen ++ [m]) := by
  by_cases hm : m ∈ seen
  · simp [if_pos hm, List.Subset.refl]
  · simp only [if_neg hm]
    exact List.subset_append_left _ _

theorem mem_updDups (m : Nat) (seen dups : List Nat) (n : Nat) :
    (n ∈ (if m ∈ seen ∧ m ∉ dups then dups ++ [m] else dups)) ↔
      n ∈ dups ∨ (n = m ∧ m ∈ seen) := by
  by_cases hc : m ∈ seen ∧ m ∉ dups
  · simp only [if_pos hc, List.mem_append, List.mem_singleton]
    constructor
    · rintro (h | rfl)
      · exact Or.inl h
      · exact Or.inr ⟨rfl, hc.1⟩
    · rintro (h | ⟨rfl, -⟩)
      · exact Or.inl h
      · exact Or.inr rfl
  · simp only [if_neg hc]
    constructor
    · exact Or.inl
    · rintro (h | ⟨rfl, hs⟩)
      · exact h
      · exact not_not.mp (fun hnd => hc ⟨hs, hnd⟩)

theorem dupScan_seen_mem : ∀ (l seen dups : List Nat) (n : Nat),
    n ∈ (dupScan l seen dups).1 ↔ n ∈ seen ∨ n ∈ l := by
  intro l
  induction l with
  | nil => intro seen dups n; simp [dupScan]
  | cons m rest ih =>
    intro seen dups n
    simp only [dupScan]
    rw [ih, mem_updSeen, List.mem_cons]
    tauto

theorem dupScan_dups_mem : ∀ (l seen dups : List Nat) (n : Nat),
    n ∈ (dupScan l seen dups).2 ↔
      n ∈ dups ∨ (n ∈ seen ∧ n ∈ l) ∨ 2 ≤ List.count n l := by
  intro l
  induction l with
  | nil =>
    intro seen dups n
    simp [dupScan]
  | cons m rest ih =>
    intro seen dups n
    simp only [dupScan]
    rw [ih, mem_updDups, mem_updSeen]
    by_cases hnm : n = m
    · subst hnm
      rw [List.count_cons_self]
      by_cases hr : n ∈ rest
      · have h1 : 1 ≤ List.count n rest := List.count_pos_iff.mpr hr
        have h2 : 2 ≤ List.count n rest + 1 := by omega
        simp [hr, h2]
      · have h0 : List.count n rest = 0 := by
          by_contra hne
          exact hr (List.count_pos_iff.mp (by omega))
        rw [h0]
        have hmm : n ∈ n :: rest := List.mem_cons_self _ _
        constructor
        · rintro (h | h | hc)
          · rcases h with h | h
            · exact Or.inl h
            · exact Or.inr (Or.inl ⟨h.2, hmm⟩)
          · exact absurd h.2 hr
          · omega
        · rintro (h | h | hc)
          · exact Or.inl (Or.inl h)
          · exact Or.inl (Or.inr ⟨rfl, h.1⟩)
          · omega
    · rw [List.count_cons_of_ne hnm, List.mem_cons]
      tauto

theorem dupScan_seen_nodup : ∀ (l seen dups : List Nat),
    seen.Nodup → (dupScan l seen dups).1.Nodup := by
  intro l
  induction l with
  | nil => intro seen dups h; simpa [dupScan] using h
  | cons m rest ih =>
    intro seen dups h
    simp only [dupScan]
    apply ih
    by_cases hm : m ∈ seen
    · simpa [if_pos hm] using h
    · simp [if_neg hm, List.nodup_append, h, hm]

theorem dupScan_dups_nodup : ∀ (l seen dups : List Nat),
    dups.Nodup → (dupScan l seen dups).2.Nodup := by
  intro l
  induction l with
  | nil => intro seen dups h; simpa [dupScan] using h
  | cons m rest ih =>
    intro seen dups h
    simp only [dupScan]
    apply ih
    by_cases hc : m ∈ seen ∧ m ∉ dups
    · rw [if_pos hc]
      simp [List.nodup_append, h, hc.2]
    · rwa [if_neg hc]

theorem dupScan_dups_sorted : ∀ (l seen dups : List Nat),
    l.Pairwise (· ≤ ·) →
    (∀ s ∈ seen, ∀ n ∈ l, s ≤ n) →
    (∀ d ∈ dups, d ∈ seen) →
    dups.Pairwise (· < ·) →
    (dupScan l seen dups).2.Pairwise (· < ·) := by
  intro l
  induction l with
  | nil => intro seen dups _ _ _ hd; simpa [dupScan] using hd
  | cons m rest ih =>
    intro seen dups hl hseen hdin hd
    rcases List.pairwise_cons.mp hl with ⟨hm, hrest⟩
    simp only [dupScan]
    apply ih
    · exact hrest
    · intro s hs n hn
      rcases (mem_updSeen m seen s).mp hs with h | heq
      · exact hseen s h n (List.mem_cons_of_mem m hn)
      · exact heq ▸ hm n hn
    · intro d hdm
      rcases (mem_updDups m seen dups d).mp hdm with h | ⟨heq, hs⟩
      · exact updSeen_sub m seen (hdin d h)
      · exact (mem_updSeen m seen d).mpr (Or.inr heq)
    · by_cases hc : m ∈ seen ∧ m ∉ dups
      · rw [if_pos hc]
        rw [List.pairwise_append]
        refine ⟨hd, List.pairwise_singleton _ _, ?_⟩
        intro a ha b hb
        rw [List.mem_singleton] at hb
        subst hb
        have hle : a ≤ b := hseen a (hdin a ha) b (List.mem_cons_self _ _)
        have hne : a ≠ b := fun h => hc.2 (h ▸ ha)
        omega
      · rwa [if_neg hc]

theorem foldl_max_eq_or_mem : ∀ (r : List Nat) (a : Nat),
    r.foldl Nat.max a = a ∨ r.foldl Nat.max a ∈ r := by
  intro r
  induction r with
  | nil => intro a; exact Or.inl rfl
  | cons x r ih =>
    intro a
    rcases ih (Nat.max a x) with h | h
    · rcases max_choice a x with hm | hm
      · exact Or.inl (by rw [List.foldl_cons, h]; exact hm)
      · refine Or.inr (by rw [List.foldl_cons, h, show a.max x = x from hm]; exact List.mem_cons_self _ _)
    · exact Or.inr (List.mem_cons_of_mem _ h)

theorem le_foldl_max : ∀ (r : List Nat) (a : Nat), a ≤ r.foldl Nat.max a := by
  intro r
  induction r with
  | nil => intro a; exact Nat.le_refl a
  | cons x r ih =>
    intro a
    calc a ≤ Nat.max a x := Nat.le_max_left a x
    _ ≤ (x :: r).foldl Nat.max a := by rw [List.foldl_cons]; exact ih _

theorem mem_le_foldl_max : ∀ (r : List Nat) (a n : Nat), n ∈ r → n ≤ r.foldl Nat.max a := by
  intro r
  induction r with
  | nil => intro a n h; simp at h
  | cons x r ih =>
    intro a n h
    rcases List.mem_cons.mp h with rfl | h
    · calc n ≤ Nat.max a n := Nat.le_max_right a n
      _ ≤ r.foldl Nat.max (Nat.max a n) := le_foldl_max r _
      _ = (n :: r).foldl Nat.max a := by rw [List.foldl_cons]
    · rw [List.foldl_cons]
      exact ih _ n h

theorem pyMax_mem {l : List Nat} (h : l ≠ []) : pyMax l ∈ l := by
  match l with
  | [] => exact absurd rfl h
  | n :: r =>
    rcases foldl_max_eq_or_mem r n with he | he
    · rw [pyMax, he]; exact List.mem_cons_self _ _
    · rw [pyMax]; exact List.mem_cons_of_mem _ he

theorem le_pyMax {l : List Nat} {n : Nat} (h : n ∈ l) : n ≤ pyMax l := by
  match l with
  | [] => simp at h
  | m :: r =>
    rcases List.mem_cons.mp h with rfl | h
    · exact le_foldl_max r n
    · exact mem_le_foldl_max r m n h

theorem leNat_trans : ∀ a b c : Nat, leNat a b = true → leNat b c = true → leNat a c = true := by
  intro a b c
  simp only [leNat, decide_eq_true_eq]
  omega

theorem leNat_total : ∀ a b : Nat, leNat a b = true ∨ leNat b a = true := by
  intro a b
  simp only [leNat, decide_eq_true_eq]
  omega

theorem examChecks_nil (rt : Option Nat) : examChecks [] rt = ([], [], []) := rfl

theorem examChecks_missing (numbers : List Nat) (rt : Option Nat) (h : numbers ≠ []) :
    (examChecks numbers rt).1 =
      (List.range' 1 (expected_total rt numbers)).filter
        (fun n => !(decide (n ∈ numbers))) := by
  have hne : ¬(numbers.isEmpty = true) := by simpa [List.isEmpty_iff] using h
  unfold examChecks
  rw [if_neg hne]
  dsimp only []
  apply List.filter_congr
  intro x _
  congr 1
  rw [decide_eq_decide]
  rw [dupScan_seen_mem]
  simp

theorem examChecks_dups_mem (numbers : List Nat) (rt : Option Nat) (n : Nat) :
    n ∈ (examChecks numbers rt).2.1 ↔ 2 ≤ List.count n numbers := by
  by_cases h : numbers = []
  · subst h
    simp [examChecks]
  · have hne : ¬(numbers.isEmpty = true) := by simpa [List.isEmpty_iff] using h
    unfold examChecks
    rw [if_neg hne]
    dsimp only []
    rw [dupScan_dups_mem]
    simp

theorem examChecks_dups_sorted (numbers : List Nat) (rt : Option Nat)
    (hs : numbers.Pairwise (· ≤ ·)) :
    (examChecks numbers rt).2.1.Pairwise (· < ·) := by
  by_cases h : numbers = []
  · subst h
    simp [examChecks]
  · have hne : ¬(numbers.isEmpty = true) := by simpa [List.isEmpty_iff] using h
    unfold examChecks
    rw [if_neg hne]
    dsimp only []
    exact dupScan_dups_sorted numbers [] [] hs (by simp) (by simp) (by simp)

theorem examChecks_unexpected_mem (numbers : List Nat) (rt : Option Nat) (n : Nat)
    (h : numbers ≠ []) :
    n ∈ (examChecks numbers rt).2.2 ↔
      n ∈ numbers ∧ (n < 1 ∨ expected_total rt numbers < n) := by
  have hne : ¬(numbers.isEmpty = true) := by simpa [List.isEmpty_iff] using h
  unfold examChecks
  rw [if_neg hne]
  dsimp only []
  rw [List.mem_filter, mem_pySort, dupScan_seen_mem]
  simp

theorem examChecks_unexpected_sorted (numbers : List Nat) (rt : Option Nat) :
    (examChecks numbers rt).2.2.Pairwise (· < ·) := by
  by_cases h : numbers = []
  · subst h
    simp [examChecks]
  · have hne : ¬(numbers.isEmpty = true) := by simpa [List.isEmpty_iff] using h
    unfold examChecks
    rw [if_neg hne]
    dsimp only []
    have hseen_nodup : (dupScan numbers [] []).1.Nodup :=
      dupScan_seen_nodup numbers [] [] List.nodup_nil
    have hsorted : (pySort leNat (dupScan numbers [] []).1).Pairwise (· ≤ ·) :=
      (pairwise_pySort leNat leNat_trans leNat_total _).imp
        (by intro a b hab; simpa [leNat] using hab)
    have hnd : (pySort leNat (dupScan numbers [] []).1).Nodup :=
      (pySort_perm leNat _).nodup_iff.mpr hseen_nodup
    have hlt : (pySort leNat (dupScan numbers [] []).1).Pairwise (· < ·) :=
      (hsorted.and hnd).imp fun hab => lt_of_le_of_ne hab.1 hab.2
    exact hlt.filter _

theorem build_exam_output_checks (text : List Char) (src : String) :
    (build_exam_output text src).summary.missing_numbers =
        (examChecks ((parse_questions text).map (fun q => q.number))
          (parse_metadata text).reported_total).1 ∧
      (build_exam_output text src).summary.duplicate_numbers =
        (examChecks ((parse_questions text).map (fun q => q.number))
          (parse_metadata text).reported_total).2.1 ∧
      (build_exam_output text src).summary.unexpected_numbers =
        (examChecks ((parse_questions text).map (fun q => q.number))
          (parse_metadata text).reported_total).2.2 :=
  ⟨rfl, rfl, rfl⟩

/-- C3: with zero parsed questions the three integrity lists stay empty; with
at least one, the `expected_total` driving the checks is the metadata's
`reported_total` when present (always integer-typed in this embedding, as in
the source, which only ever stores `int(...)` there) and otherwise the
maximum observed question number (it is an observed number and an upper bound
of all of them). -/
theorem c3_expected_total :
    ∀ (text : List Char) (src : String),
      (parse_questions text = [] →
        (build_exam_output text src).summary.missing_numbers = [] ∧
          (build_exam_output text src).summary.duplicate_numbers = [] ∧
          (build_exam_output text src).summary.unexpected_numbers = []) ∧
      (parse_questions text ≠ [] →
        (∀ t, (parse_metadata text).reported_total = some t →
          expected_total (parse_metadata text).reported_total
            ((parse_questions text).map (fun q => q.number)) = t) ∧
        ((parse_metadata text).reported_total = none →
          expected_total (parse_metadata text).reported_total
              ((parse_questions text).map (fun q => q.number)) ∈
              (parse_questions text).map (fun q => q.number) ∧
            ∀ n ∈ (parse_questions text).map (fun q => q.number),
              n ≤ expected_total (parse_metadata text).reported_total
                ((parse_questions text).map (fun q => q.number)))) := by
  intro text src
  constructor
  · intro hq
    obtain ⟨h1, h2, h3⟩ := build_exam_output_checks text src
    rw [h1, h2, h3]
    have hnums : (parse_questions text).map (fun q => q.number) = [] := by
      rw [hq]
      rfl
    rw [hnums]
    exact ⟨rfl, rfl, rfl⟩
  · intro hq
    constructor
    · intro t ht
      rw [ht]
      rfl
    · intro ht
      rw [ht]
      have hnums : (parse_questions text).map (fun q => q.number) ≠ [] := by
        simpa using hq
      exact ⟨pyMax_mem hnums, fun n hn => le_pyMax hn⟩

/-- Witness for C3: a block with no question rows has all three lists empty,
and a block reporting `2 out of 2` has `expected_total = 2`. -/
theorem c3_expected_total_witness :
    ((build_exam_output "no questions here".data "p").summary.missing_numbers = [] ∧
      (build_exam_output "no questions here".data "p").summary.duplicate_numbers = [] ∧
      (build_exam_output "no questions here".data "p").summary.unexpected_numbers = []) ∧
      expected_total
        (parse_metadata "Test Passed - 2 out of 2\n1. T1A01: A 2. T1A02: B".data).reported_total
        ((parse_questions "Test Passed - 2 out of 2\n1. T1A01: A 2. T1A02: B".data).map
          (fun q => q.number)) = 2 :=
  ⟨(c3_expected_total "no questions here".data "p").1 (by decide),
    ((c3_expected_total "Test Passed - 2 out of 2\n1. T1A01: A 2. T1A02: B".data "p").2
      (by decide)).1 2 (by decide)⟩

/-- C4: for a non-empty parsed question list, `duplicate_numbers` holds
exactly the numbers occurring at least twice, each once, in first-duplicate-
seen order (the scan runs over the sorted numbers, so that order is strictly
ascending); `missing_numbers` is exactly the ascending list of integers of
`[1, expected_total]` absent from the observed numbers; and
`unexpected_numbers` holds exactly the observed numbers outside
`[1, expected_total]`, each once, sorted ascending. -/
theorem c4_integrity_lists :
    ∀ (text : List Char) (src : String), parse_questions text ≠ [] →
      ((∀ n, n ∈ (build_exam_output text src).summary.duplicate_numbers ↔
          2 ≤ List.count n ((parse_questions text).map (fun q => q.number))) ∧
        (build_exam_output text src).summary.duplicate_numbers.Pairwise (· < ·)) ∧
      (build_exam_output text src).summary.missing_numbers =
        (List.range' 1 (expected_total (parse_metadata text).reported_total
            ((parse_questions text).map (fun q => q.number)))).filter
          (fun n => !(decide (n ∈ (parse_questions text).map (fun q => q.number)))) ∧
      ((∀ n, n ∈ (build_exam_output text src).summary.unexpected_numbers ↔
          n ∈ (parse_questions text).map (fun q => q.number) ∧
            (n < 1 ∨ expected_total (parse_metadata text).reported_total
              ((parse_questions text).map (fun q => q.number)) < n)) ∧
        (build_exam_output text src).summary.unexpected_numbers.Pairwise (· < ·)) := by
  intro text src hne
  obtain ⟨h1, h2, h3⟩ := build_exam_output_checks text src
  have hnums : (parse_questions text).map (fun q => q.number) ≠ [] := by
    simpa using hne
  have hsorted : ((parse_questions text).map (fun q => q.number)).Pairwise (· ≤ ·) :=
    List.pairwise_map.mpr (questionRows_sorted _)
  refine ⟨⟨?_, ?_⟩, ?_, ?_, ?_⟩
  · intro n
    rw [h2]
    exact examChecks_dups_mem _ _ n
  · rw [h2]
    exact examChecks_dups_sorted _ _ hsorted
  · rw [h1]
    exact examChecks_missing _ _ hnums
  · intro n
    rw [h3]
    exact examChecks_unexpected_mem _ _ n hnums
  · rw [h3]
    exact examChecks_unexpected_sorted _ _

/-- Witness for C4 at a concrete block: numbers `2, 2, 6` with a reported
total of `5` (so `6` is unexpected, `2` is a duplicate). -/
theorem c4_integrity_lists_witness :
    (build_exam_output "Test Failed - 3 out of 5\n2. T1A01: A 2. T1A02: B 6. T1A03: C".data
        "p").summary.missing_numbers =
      (List.range' 1 (expected_total
          (parse_metadata
            "Test Failed - 3 out of 5\n2. T1A01: A 2. T1A02: B 6. T1A03: C".data).reported_total
          ((parse_questions
            "Test Failed - 3 out of 5\n2. T1A01: A 2. T1A02: B 6. T1A03: C".data).map
            (fun q => q.number)))).filter
        (fun n => !(decide (n ∈ (parse_questions
          "Test Failed - 3 out of 5\n2. T1A01: A 2. T1A02: B 6. T1A03: C".data).map
          (fun q => q.number)))) :=
  (c4_integrity_lists
    "Test Failed - 3 out of 5\n2. T1A01: A 2. T1A02: B 6. T1A03: C".data "p"
    (by decide)).2.1

/-! ## Facts about the header matcher and block splitting -/

theorem litP_append : ∀ (l cs r : List Char), litP l cs = some r → l ++ r = cs := by
  intro l
  induction l with
  | nil =>
    intro cs r h
    simp only [litP, Option.some.injEq] at h
    simp [h]
  | cons x l ih =>
    intro cs r h
    match cs with
    | [] => simp [litP] at h
    | c :: cs' =>
      simp only [litP] at h
      by_cases hc : c = x
      · rw [if_pos hc] at h
        subst hc
        rw [List.cons_append, ih cs' r h]
      · rw [if_neg hc] at h
        simp at h

theorem wsDollar_append {cs w r : List Char} (h : wsDollar cs = some (w, r)) :
    w ++ r = cs := by
  unfold wsDollar at h
  dsimp only [] at h
  split at h
  · rename_i hdrop
    simp only [Option.some.injEq, Prod.mk.injEq] at h
    obtain ⟨rfl, rfl⟩ := h
    have hw := List.takeWhile_append_dropWhile (p := pyIsSpace) (l := cs)
    rw [hdrop, List.append_nil] at hw
    rw [List.append_nil]
    exact hw
  · rename_i c' r' hdrop
    split at h
    · rename_i i hnl
      simp only [Option.some.injEq, Prod.mk.injEq] at h
      obtain ⟨rfl, rfl⟩ := h
      rw [← List.append_assoc, List.take_append_drop,
        List.takeWhile_append_dropWhile]
    · simp at h

theorem headerTail_spec {cs tc pin rest : List Char}
    (h : headerTail cs = some (tc, pin, rest)) : tc ++ rest = cs ∧ '(' ∈ tc := by
  unfold headerTail at h
  dsimp only [] at h
  split at h
  · simp at h
  · rename_i hw1
    split at h
    · simp at h
    · rename_i r2 hlit
      split at h
      · simp at h
      · rename_i hd
        split at h
        · rename_i r5 hr4
          split at h
          · rename_i we rest' hwd
            simp only [Option.some.injEq, Prod.mk.injEq] at h
            obtain ⟨rfl, rfl, rfl⟩ := h
            constructor
            · have h1 := List.takeWhile_append_dropWhile (p := pyIsSpace) (l := cs)
              have h2 := litP_append _ _ _ hlit
              have h3 := List.takeWhile_append_dropWhile (p := pyIsSpace) (l := r2)
              have h4 := List.takeWhile_append_dropWhile (p := isDigitC)
                (l := r2.dropWhile pyIsSpace)
              have h5 := wsDollar_append hwd
              simp only [List.append_assoc, List.cons_append, List.nil_append]
              simp only [List.cons_append, List.nil_append] at h2
              rw [h5, ← hr4, h4, h3, h2, h1]
            · simp [List.mem_append]
          · simp at h
        · simp at h

theorem lazyHeader_spec : ∀ {cs nm tc pin rest : List Char},
    lazyHeader cs = some (nm, tc, pin, rest) →
      nm ++ (tc ++ rest) = cs ∧ '(' ∈ tc := by
  intro cs
  induction cs with
  | nil => intro nm tc pin rest h; simp [lazyHeader] at h
  | cons c r ih =>
    intro nm tc pin rest h
    simp only [lazyHeader] at h
    by_cases hc : c = '\n'
    · rw [if_pos hc] at h
      simp at h
    · rw [if_neg hc] at h
      split at h
      · rename_i tc' pin' rest' htl
        simp only [Option.some.injEq, Prod.mk.injEq] at h
        obtain ⟨rfl, rfl, rfl, rfl⟩ := h
        obtain ⟨heq, hmem⟩ := headerTail_spec htl
        exact ⟨by rw [List.cons_append, List.nil_append, heq], hmem⟩
      · split at h
        · rename_i nm' tc' pin' rest' hrec
          simp only [Option.some.injEq, Prod.mk.injEq] at h
          obtain ⟨rfl, rfl, rfl, rfl⟩ := h
          obtain ⟨heq, hmem⟩ := ih hrec
          exact ⟨by rw [List.cons_append, heq], hmem⟩
        · simp at h

theorem wsDescHeader_spec : ∀ (wrev r : List Char) {wk nm tc pin rest : List Char},
    wsDescHeader wrev r = some (wk, nm, tc, pin, rest) →
      wk ++ (nm ++ (tc ++ rest)) = wrev.reverse ++ r ∧ '(' ∈ tc := by
  intro wrev
  induction wrev with
  | nil =>
    intro r wk nm tc pin rest h
    simp only [wsDescHeader] at h
    split at h
    · rename_i nm' tc' pin' rest' hlz
      simp only [Option.some.injEq, Prod.mk.injEq] at h
      obtain ⟨rfl, rfl, rfl, rfl, rfl⟩ := h
      obtain ⟨heq, hmem⟩ := lazyHeader_spec hlz
      exact ⟨by simpa using heq, hmem⟩
    · simp at h
  | cons c wrev' ih =>
    intro r wk nm tc pin rest h
    simp only [wsDescHeader] at h
    split at h
    · rename_i nm' tc' pin' rest' hlz
      simp only [Option.some.injEq, Prod.mk.injEq] at h
      obtain ⟨rfl, rfl, rfl, rfl, rfl⟩ := h
      obtain ⟨heq, hmem⟩ := lazyHeader_spec hlz
      exact ⟨by rw [heq], hmem⟩
    · obtain ⟨heq, hmem⟩ := ih (c :: r) h
      refine ⟨?_, hmem⟩
      rw [heq, List.reverse_cons, List.append_assoc]
      simp

theorem headerMatchAt_spec {cs consumed nm pin rest : List Char}
    (h : headerMatchAt cs = some (consumed, nm, pin, rest)) :
    consumed ++ rest = cs ∧ '(' ∈ consumed := by
  unfold headerMatchAt at h
  dsimp only [] at h
  split at h
  · rename_i wk nm' tc pin' rest' heq
    simp only [Option.some.injEq, Prod.mk.injEq] at h
    obtain ⟨rfl, rfl, rfl, rfl⟩ := h
    obtain ⟨heqn, hmem⟩ := wsDescHeader_spec _ _ heq
    rw [List.reverse_reverse, List.takeWhile_append_dropWhile] at heqn
    constructor
    · rw [← heqn]
      simp [List.append_assoc]
    · simp [List.mem_append, hmem]
  · simp at h

theorem headerScanAux_ge : ∀ (fuel : Nat) (cs : List Char) (pos : Nat) (atLS : Bool)
    (pc : Nat × List Char), pc ∈ headerScanAux fuel cs pos atLS → pos ≤ pc.1 := by
  intro fuel
  induction fuel with
  | zero => intro cs pos atLS pc h; simp [headerScanAux] at h
  | succ fuel ih =>
    intro cs pos atLS pc h
    match cs with
    | [] => simp [headerScanAux] at h
    | c :: r =>
      simp only [headerScanAux] at h
      by_cases hls : atLS = true
      · rw [if_pos hls] at h
        split at h
        · rename_i consumed nm pin rest heq
          rcases List.mem_cons.mp h with rfl | h2
          · exact Nat.le_refl pos
          · have := ih rest (pos + consumed.length) _ pc h2
            omega
        · have := ih r (pos + 1) _ pc h
          omega
      · rw [if_neg hls] at h
        have := ih r (pos + 1) _ pc h
        omega

theorem headerScanAux_prefix (text : List Char) : ∀ (fuel : Nat) (cs : List Char)
    (pos : Nat) (atLS : Bool), cs = text.drop pos →
    ∀ pc ∈ headerScanAux fuel cs pos atLS, '(' ∈ pc.2 ∧ pc.2 <+: text.drop pc.1 := by
  intro fuel
  induction fuel with
  | zero => intro cs pos atLS hcs pc h; simp [headerScanAux] at h
  | succ fuel ih =>
    intro cs pos atLS hcs pc h
    match cs, hcs with
    | [], hcs => simp [headerScanAux] at h
    | c :: r, hcs =>
      simp only [headerScanAux] at h
      have hr : r = text.drop (pos + 1) := by
        have := List.tail_drop text pos
        rw [← hcs] at this
        simpa using this
      by_cases hls : atLS = true
      · rw [if_pos hls] at h
        split at h
        · rename_i consumed nm pin rest heq
          obtain ⟨happ, hmem⟩ := headerMatchAt_spec heq
          rw [hcs] at happ
          rcases List.mem_cons.mp h with rfl | h2
          · exact ⟨hmem, ⟨rest, happ⟩⟩
          · have hrest : rest = text.drop (pos + consumed.length) := by
              have hdl : (consumed ++ rest).drop consumed.length = rest :=
                List.drop_left consumed rest
              rw [happ, List.drop_drop] at hdl
              exact hdl.symm
            exact ih rest (pos + consumed.length) _ hrest pc h2
        · exact ih r (pos + 1) _ hr pc h
      · rw [if_neg hls] at h
        exact ih r (pos + 1) _ hr pc h

theorem headerScanAux_chain : ∀ (fuel : Nat) (cs : List Char) (pos : Nat) (atLS : Bool),
    (headerScanAux fuel cs pos atLS).Chain' (fun a b => a.1 + a.2.length ≤ b.1) := by
  intro fuel
  induction fuel with
  | zero => intro cs pos atLS; simp [headerScanAux]
  | succ fuel ih =>
    intro cs pos atLS
    match cs with
    | [] => simp [headerScanAux]
    | c :: r =>
      simp only [headerScanAux]
      by_cases hls : atLS = true
      · rw [if_pos hls]
        split
        · rename_i consumed nm pin rest heq
          rw [List.chain'_cons']
          refine ⟨?_, ih rest (pos + consumed.length) _⟩
          intro y hy
          exact headerScanAux_ge fuel rest (pos + consumed.length) _ y
            (List.mem_of_mem_head? hy)
        · exact ih r (pos + 1) _
      · rw [if_neg hls]
        exact ih r (pos + 1) _

theorem mem_dropWhile_of_neg {p : Char → Bool} {c : Char} (hc : p c = false) :
    ∀ {l : List Char}, c ∈ l → c ∈ l.dropWhile p := by
  intro l
  induction l with
  | nil => intro h; simp at h
  | cons x l ih =>
    intro h
    by_cases hx : p x = true
    · rw [List.dropWhile_cons_of_pos hx]
      rcases List.mem_cons.mp h with rfl | h2
      · rw [hx] at hc; simp at hc
      · exact ih h2
    · rw [List.dropWhile_cons_of_neg hx]
      exact h

theorem stripPy_ne_nil {cs : List Char} {c : Char} (hc : c ∈ cs)
    (hw : pyIsSpace c = false) : stripPy cs ≠ [] := by
  intro he
  have h1 : c ∈ cs.dropWhile pyIsSpace := mem_dropWhile_of_neg hw hc
  have h2 : c ∈ (cs.dropWhile pyIsSpace).reverse := List.mem_reverse.mpr h1
  have h3 : c ∈ ((cs.dropWhile pyIsSpace).reverse.dropWhile pyIsSpace) :=
    mem_dropWhile_of_neg hw h2
  have h4 : c ∈ stripPy cs := by
    rw [stripPy]
    exact List.mem_reverse.mpr h3
  rw [he] at h4
  simp at h4

theorem prefix_take_of_le {l₁ l₂ : List Char} {n : Nat} (h : l₁ <+: l₂)
    (hn : l₁.length ≤ n) : l₁ <+: l₂.take n := by
  obtain ⟨t, rfl⟩ := h
  rw [List.take_append_eq_append_take, List.take_of_length_le hn]
  exact ⟨t.take (n - l₁.length), rfl⟩

theorem blocksFromStarts_length (text : List Char) : ∀ (ms : List (Nat × List Char)),
    (∀ pc ∈ ms, '(' ∈ pc.2 ∧ pc.2 <+: text.drop pc.1) →
    ms.Chain' (fun a b => a.1 + a.2.length ≤ b.1) →
    (blocksFromStarts text (ms.map Prod.fst)).length = ms.length
  | [], _, _ => rfl
  | [pc], hmem, _ => by
    obtain ⟨hpar, hpre⟩ := hmem pc (List.mem_singleton_self pc)
    have hin : '(' ∈ text.drop pc.1 := hpre.subset hpar
    have hne : stripPy (text.drop pc.1) ≠ [] := stripPy_ne_nil hin (by decide)
    have hne' : ¬((stripPy (text.drop pc.1)).isEmpty = true) := by
      simpa [List.isEmpty_iff] using hne
    simp only [List.map_cons, List.map_nil, blocksFromStarts]
    rw [if_neg hne']
    rfl
  | pc :: pc' :: tl, hmem, hch => by
    obtain ⟨hpar, hpre⟩ := hmem pc (List.mem_cons_self _ _)
    have hlen : pc.1 + pc.2.length ≤ pc'.1 := (List.chain'_cons.mp hch).1
    have hpre2 : pc.2 <+: (text.drop pc.1).take (pc'.1 - pc.1) :=
      prefix_take_of_le hpre (by omega)
    have hin : '(' ∈ (text.drop pc.1).take (pc'.1 - pc.1) := hpre2.subset hpar
    have hne : stripPy ((text.drop pc.1).take (pc'.1 - pc.1)) ≠ [] :=
      stripPy_ne_nil hin (by decide)
    have hne' : ¬((stripPy ((text.drop pc.1).take (pc'.1 - pc.1))).isEmpty = true) := by
      simpa [List.isEmpty_iff] using hne
    have ihres := blocksFromStarts_length text (pc' :: tl)
      (fun x hx => hmem x (List.mem_cons_of_mem _ hx)) (List.chain'_cons.mp hch).2
    simp only [List.map_cons, blocksFromStarts]
    rw [if_neg hne']
    simp only [List.length_append, List.length_cons, List.length_nil]
    simp only [List.map_cons] at ihres
    rw [ihres]
    simp [Nat.add_comm]

theorem split_exam_blocks_count (text : List Char) (h : headerMatches text ≠ []) :
    (split_exam_blocks text).length = (headerMatches text).length := by
  have hmem : ∀ pc ∈ headerMatches text, '(' ∈ pc.2 ∧ pc.2 <+: text.drop pc.1 :=
    headerScanAux_prefix text text.length text 0 true (by simp)
  have hch : (headerMatches text).Chain' (fun a b => a.1 + a.2.length ≤ b.1) :=
    headerScanAux_chain text.length text 0 true
  have hlen := blocksFromStarts_length text (headerMatches text) hmem hch
  unfold split_exam_blocks
  have hstarts : ¬(((headerMatches text).map Prod.fst).isEmpty = true) := by
    simpa [List.isEmpty_iff] using h
  rw [if_neg hstarts]
  dsimp only []
  have hbne : ¬((blocksFromStarts text ((headerMatches text).map Prod.fst)).isEmpty
      = true) := by
    rw [List.isEmpty_iff]
    intro hb
    rw [hb] at hlen
    exact h (List.length_eq_zero.mp hlen.symm)
  rw [if_neg hbne]
  exact hlen

/-- C5: `build_output` yields the flat record (no `exams` key) exactly when
block splitting yields one block, and a text with `N ≥ 2` header-line matches
yields an `exams` list of length `N` (every inter-header slice contains the
non-whitespace characters of its header match, so no block is dropped by the
emptiness filter). -/
theorem c5_output_shape :
    ∀ (text : List Char) (src : String),
      (examsList? (build_output text src) = none ↔
        (split_exam_blocks text).length = 1) ∧
      ∀ N, 2 ≤ N → (headerMatches text).length = N →
        ∃ exs, examsList? (build_output text src) = some exs ∧ exs.length = N := by
  intro text src
  constructor
  · by_cases h : (split_exam_blocks text).length = 1
    · simp [build_output, examsList?, h]
    · simp [build_output, examsList?, h]
  · intro N hN h2
    have hms : headerMatches text ≠ [] := by
      intro hnil
      rw [hnil] at h2
      simp at h2
      omega
    have hlen : (split_exam_blocks text).length = N := by
      rw [split_exam_blocks_count text hms, h2]
    have hne1 : ¬((split_exam_blocks text).length = 1) := by omega
    refine ⟨(split_exam_blocks text).map (fun b => build_exam_output b src), ?_, by
      simp [hlen]⟩
    simp [build_output, examsList?, hne1]

/-- Witness for C5 at a two-header document. -/
theorem c5_output_shape_witness :
    ∃ exs, examsList? (build_output "A (PIN: 1)\nB (PIN: 2)\n".data "f.txt") = some exs ∧
      exs.length = 2 :=
  (c5_output_shape "A (PIN: 1)\nB (PIN: 2)\n".data "f.txt").2 2 (by omega) (by decide)

/-! ## Facts about the aggregator and statistics -/

theorem mfAccum_spec : ∀ (outs : List FileOutput) (rows : List Row) (ex qs c i : Nat),
    mfAccum outs (rows, ex, qs, c, i) =
      (rows ++ outs.flatMap flatten_questions_for_csv,
        ex + (outs.map (fun o => (extract_exam_list o).length)).sum,
        qs + (outs.map fileSummaryQuestions).sum,
        c + (outs.map fileSummaryCorrect).sum,
        i + (outs.map fileSummaryIncorrect).sum) := by
  intro outs
  induction outs with
  | nil =>
    intro rows ex qs c i
    simp [mfAccum]
  | cons o rest ih =>
    intro rows ex qs c i
    simp only [mfAccum, List.flatMap_cons, List.map_cons, List.sum_cons]
    rw [ih]
    simp [List.append_assoc, Nat.add_assoc]

/-- C1 as stated is false for `total_exams_parsed`: a flat single-exam file
record has no `total_exams_parsed` key in its summary (so the claimed sum is
`0`), yet the aggregate counts its one exam. -/
theorem c1_counterexample :
    (build_multi_file_output
        [build_output "1. T1A01: A".data "f.txt"]).summary.total_exams_parsed ≠
      ([build_output "1. T1A01: A".data "f.txt"].map fileSummaryExams).sum := by
  decide

/-- C1 amended: `total_questions_parsed`, `correct` and `incorrect` are the
sums of the same-named fields of each file record's own summary (an absent
field contributing 0), while `total_exams_parsed` is instead the sum of the
lengths of the normalised exam lists — 1 for a flat record (whose summary
lacks the field), the length of `exams` otherwise. -/
theorem c1_amended_sums :
    ∀ outs : List FileOutput,
      (build_multi_file_output outs).summary.total_questions_parsed =
          (outs.map fileSummaryQuestions).sum ∧
        (build_multi_file_output outs).summary.correct =
          (outs.map fileSummaryCorrect).sum ∧
        (build_multi_file_output outs).summary.incorrect =
          (outs.map fileSummaryIncorrect).sum ∧
        (build_multi_file_output outs).summary.total_exams_parsed =
          (outs.map (fun o => (extract_exam_list o).length)).sum ∧
        (build_multi_file_output outs).summary.total_input_files = outs.length := by
  intro outs
  have h := mfAccum_spec outs [] 0 0 0 0
  simp only [build_multi_file_output, h]
  simp

theorem lexLt_asymm : ∀ a b : List Char,
    lexLtChars a b = true → lexLtChars b a = false := by
  intro a
  induction a with
  | nil =>
    intro b h
    cases b with
    | nil => simp [lexLtChars] at h
    | cons d ds => simp [lexLtChars]
  | cons c cs ih =>
    intro b h
    cases b with
    | nil => simp [lexLtChars] at h
    | cons d ds =>
      simp only [lexLtChars] at h ⊢
      by_cases h1 : c.toNat < d.toNat
      · rw [if_neg (by omega), if_pos h1]
      · rw [if_neg h1] at h
        by_cases h2 : d.toNat < c.toNat
        · rw [if_pos h2] at h
          simp at h
        · rw [if_neg h2] at h
          rw [if_neg (by omega), if_neg (by omega)]
          exact ih ds h

theorem lexLt_cotrans : ∀ (c a b : List Char), lexLtChars c a = true →
    lexLtChars c b = true ∨ lexLtChars b a = true := by
  intro c
  induction c with
  | nil =>
    intro a b h
    cases a with
    | nil => simp [lexLtChars] at h
    | cons x xs =>
      cases b with
      | nil => exact Or.inr (by simp [lexLtChars])
      | cons y ys => exact Or.inl (by simp [lexLtChars])
  | cons z zs ih =>
    intro a b h
    cases a with
    | nil => simp [lexLtChars] at h
    | cons x xs =>
      cases b with
      | nil => exact Or.inr (by simp [lexLtChars])
      | cons y ys =>
        simp only [lexLtChars] at h ⊢
        by_cases hzx : z.toNat < x.toNat
        · by_cases hzy : z.toNat < y.toNat
          · exact Or.inl (by rw [if_pos hzy])
          · by_cases hyz : y.toNat < z.toNat
            · exact Or.inr (by rw [if_pos (by omega)])
            · exact Or.inr (by rw [if_pos (by omega)])
        · rw [if_neg hzx] at h
          by_cases hxz : x.toNat < z.toNat
          · rw [if_pos hxz] at h
            simp at h
          · rw [if_neg hxz] at h
            by_cases hzy : z.toNat < y.toNat
            · exact Or.inl (by rw [if_pos hzy])
            · by_cases hyz : y.toNat < z.toNat
              · exact Or.inr (by rw [if_pos (by omega)])
              · rcases ih xs ys h with hc | hc
                · refine Or.inl ?_
                  rw [if_neg hzy, if_neg hyz]
                  exact hc
                · refine Or.inr ?_
                  rw [if_neg (by omega), if_neg (by omega)]
                  exact hc

theorem pyStrLe_total (a b : String) : pyStrLe a b = true ∨ pyStrLe b a = true := by
  unfold pyStrLe
  by_cases h : pyStrLt b a = true
  · refine Or.inr ?_
    unfold pyStrLt at h ⊢
    rw [lexLt_asymm _ _ h]
    rfl
  · refine Or.inl ?_
    simp only [Bool.not_eq_true] at h
    rw [h]
    rfl

theorem pyStrLe_trans (a b c : String) (hab : pyStrLe a b = true)
    (hbc : pyStrLe b c = true) : pyStrLe a c = true := by
  unfold pyStrLe pyStrLt at hab hbc ⊢
  rw [Bool.not_eq_true'] at hab hbc ⊢
  by_contra hca
  have hca' : lexLtChars c.data a.data = true := by
    cases hc : lexLtChars c.data a.data
    · exact absurd hc hca
    · rfl
  rcases lexLt_cotrans c.data a.data b.data hca' with h | h
  · rw [h] at hbc
    simp at hbc
  · rw [h] at hab
    simp at hab

theorem tupLe_iff (x y : ℚ × Nat × String) :
    tupLe x y = true ↔
      x.1 < y.1 ∨ (x.1 = y.1 ∧ (y.2.1 < x.2.1 ∨ (x.2.1 = y.2.1 ∧
        pyStrLe x.2.2 y.2.2 = true))) := by
  unfold tupLe
  split_ifs with h1 h2 h3 h4
  · exact iff_of_true rfl (Or.inl h1)
  · refine iff_of_false (by simp) ?_
    rintro (h | ⟨he, -⟩)
    · exact absurd h (lt_asymm h2)
    · exact absurd he (ne_of_gt h2)
  · have he : x.1 = y.1 := le_antisymm (not_lt.mp h2) (not_lt.mp h1)
    exact iff_of_true rfl (Or.inr ⟨he, Or.inl h3⟩)
  · refine iff_of_false (by simp) ?_
    rintro (h | ⟨-, h' | ⟨he', -⟩⟩)
    · exact absurd h h1
    · exact absurd h' h3
    · exact absurd he' (ne_of_lt h4)
  · have he : x.1 = y.1 := le_antisymm (not_lt.mp h2) (not_lt.mp h1)
    have ha : x.2.1 = y.2.1 := Nat.le_antisymm (Nat.not_lt.mp h3) (Nat.not_lt.mp h4)
    constructor
    · intro hs
      exact Or.inr ⟨he, Or.inr ⟨ha, hs⟩⟩
    · rintro (h | ⟨-, h' | ⟨-, hs⟩⟩)
      · exact absurd h h1
      · exact absurd h' h3
      · exact hs

theorem tupLe_trans (x y z : ℚ × Nat × String) (hxy : tupLe x y = true)
    (hyz : tupLe y z = true) : tupLe x z = true := by
  rw [tupLe_iff] at hxy hyz ⊢
  rcases hxy with h1 | ⟨e1, hr1⟩
  · rcases hyz with h2 | ⟨e2, -⟩
    · exact Or.inl (lt_trans h1 h2)
    · exact Or.inl (e2 ▸ h1)
  · rcases hyz with h2 | ⟨e2, hr2⟩
    · exact Or.inl (e1 ▸ h2)
    · refine Or.inr ⟨e1.trans e2, ?_⟩
      rcases hr1 with ha1 | ⟨f1, hs1⟩
      · rcases hr2 with ha2 | ⟨f2, -⟩
        · exact Or.inl (lt_trans ha2 ha1)
        · exact Or.inl (f2 ▸ ha1)
      · rcases hr2 with ha2 | ⟨f2, hs2⟩
        · exact Or.inl (f1.symm ▸ ha2)
        · exact Or.inr ⟨f1.trans f2, pyStrLe_trans _ _ _ hs1 hs2⟩

theorem tupLe_total (x y : ℚ × Nat × String) : tupLe x y = true ∨ tupLe y x = true := by
  rw [tupLe_iff, tupLe_iff]
  rcases lt_trichotomy x.1 y.1 with h | h | h
  · exact Or.inl (Or.inl h)
  · rcases Nat.lt_trichotomy x.2.1 y.2.1 with h2 | h2 | h2
    · exact Or.inr (Or.inr ⟨h.symm, Or.inl h2⟩)
    · rcases pyStrLe_total x.2.2 y.2.2 with h3 | h3
      · exact Or.inl (Or.inr ⟨h, Or.inr ⟨h2, h3⟩⟩)
      · exact Or.inr (Or.inr ⟨h.symm, Or.inr ⟨h2.symm, h3⟩⟩)
    · exact Or.inl (Or.inr ⟨h, Or.inl h2⟩)
  · exact Or.inr (Or.inl h)

theorem gLeB_trans : ∀ a b c : GStat,
    gLeB a b = true → gLeB b c = true → gLeB a c = true :=
  fun _ _ _ hab hbc => tupLe_trans _ _ _ hab hbc

theorem gLeB_total : ∀ a b : GStat, gLeB a b = true ∨ gLeB b a = true :=
  fun _ _ => tupLe_total _ _

theorem qLeB_trans : ∀ a b c : QStat,
    qLeB a b = true → qLeB b c = true → qLeB a c = true :=
  fun _ _ _ hab hbc => tupLe_trans _ _ _ hab hbc

theorem qLeB_total : ∀ a b : QStat, qLeB a b = true ∨ qLeB b a = true :=
  fun _ _ => tupLe_total _ _

theorem gLeB_iff (a b : GStat) :
    gLeB a b = true ↔
      a.accuracy < b.accuracy ∨ (a.accuracy = b.accuracy ∧
        (b.attempts < a.attempts ∨ (a.attempts = b.attempts ∧
          pyStrLe a.group_key b.group_key = true))) :=
  tupLe_iff _ _

theorem qLeB_iff (a b : QStat) :
    qLeB a b = true ↔
      a.accuracy < b.accuracy ∨ (a.accuracy = b.accuracy ∧
        (b.attempts < a.attempts ∨ (a.attempts = b.attempts ∧
          pyStrLe a.question_id b.question_id = true))) :=
  tupLe_iff _ _

theorem compute_group_stats_sorted (rows : List Row) (kn : String)
    (f : QidParts → String) :
    (compute_group_stats rows kn f).Pairwise (fun a b => gLeB a b = true) := by
  unfold compute_group_stats
  dsimp only []
  exact pairwise_pySort gLeB gLeB_trans gLeB_total _

theorem compute_question_stats_sorted (rows : List Row) :
    (compute_question_stats rows).Pairwise (fun a b => qLeB a b = true) := by
  unfold compute_question_stats
  dsimp only []
  exact pairwise_pySort qLeB qLeB_trans qLeB_total _

/-- C6: each of the three grouped tables is sorted ascending by accuracy,
then descending by attempts, then ascending by its group key — so a group
with a lower accuracy precedes one with a higher accuracy regardless of
attempt counts. -/
theorem c6_stats_tables_sorted :
    ∀ rows : List Row,
      (compute_question_stats rows).Pairwise (fun a b =>
        a.accuracy < b.accuracy ∨ (a.accuracy = b.accuracy ∧
          (b.attempts < a.attempts ∨ (a.attempts = b.attempts ∧
            pyStrLe a.question_id b.question_id = true)))) ∧
      (compute_section_stats rows).Pairwise (fun a b =>
        a.accuracy < b.accuracy ∨ (a.accuracy = b.accuracy ∧
          (b.attempts < a.attempts ∨ (a.attempts = b.attempts ∧
            pyStrLe a.group_key b.group_key = true)))) ∧
      (compute_subsection_stats rows).Pairwise (fun a b =>
        a.accuracy < b.accuracy ∨ (a.accuracy = b.accuracy ∧
          (b.attempts < a.attempts ∨ (a.attempts = b.attempts ∧
            pyStrLe a.group_key b.group_key = true)))) := by
  intro rows
  refine ⟨?_, ?_, ?_⟩
  · exact (compute_question_stats_sorted rows).imp fun hab => (qLeB_iff _ _).mp hab
  · exact (compute_group_stats_sorted rows _ _).imp fun hab => (gLeB_iff _ _).mp hab
  · exact (compute_group_stats_sorted rows _ _).imp fun hab => (gLeB_iff _ _).mp hab

/-- Witness for C2's amended permutation property, at a concrete swap of two
matches with distinct numbers. -/
theorem c2_amended_witness :
    questionRows [⟨1, "T1A01", 'A', none⟩, ⟨2, "T1A02", 'B', none⟩] =
      questionRows [⟨2, "T1A02", 'B', none⟩, ⟨1, "T1A01", 'A', none⟩] :=
  c2_amended_sorted_and_perm.2 _ _ (List.Perm.swap _ _ _) (by decide)

theorem foldl_gacc_inv {β : Type} (g : List GAcc → β → List GAcc)
    (hg : ∀ (acc : List GAcc) (b : β), (∀ a ∈ acc, 1 ≤ a.attempts) →
      ∀ a ∈ g acc b, 1 ≤ a.attempts) :
    ∀ (l : List β) (acc : List GAcc), (∀ a ∈ acc, 1 ≤ a.attempts) →
      ∀ a ∈ l.foldl g acc, 1 ≤ a.attempts := by
  intro l
  induction l with
  | nil => intro acc h; simpa using h
  | cons b l ih =>
    intro acc h
    simp only [List.foldl_cons]
    exact ih (g acc b) (hg acc b h)

theorem statsUpd_inv (gk : String) (isC : Bool) :
    ∀ (acc : List GAcc), (∀ a ∈ acc, 1 ≤ a.attempts) →
      ∀ a ∈ statsUpd gk isC acc, 1 ≤ a.attempts := by
  intro acc
  induction acc with
  | nil =>
    intro _ a ha
    simp only [statsUpd, List.mem_singleton] at ha
    subst ha
    exact Nat.le_refl 1
  | cons x rest ih =>
    intro h a ha
    simp only [statsUpd] at ha
    by_cases hx : x.group_key = gk
    · rw [if_pos hx] at ha
      rcases List.mem_cons.mp ha with rfl | h2
      · have := h x (List.mem_cons_self _ _)
        simp only []
        omega
      · exact h a (List.mem_cons_of_mem _ h2)
    · rw [if_neg hx] at ha
      rcases List.mem_cons.mp ha with rfl | h2
      · exact h a (List.mem_cons_self _ _)
      · exact ih (fun a' ha' => h a' (List.mem_cons_of_mem _ ha')) a h2

theorem qStatsUpd_inv (qid : String) (isC : Bool) :
    ∀ (acc : List GAcc), (∀ a ∈ acc, 1 ≤ a.attempts) →
      ∀ a ∈ qStatsUpd qid isC acc, 1 ≤ a.attempts := by
  intro acc
  induction acc with
  | nil =>
    intro _ a ha
    simp only [qStatsUpd, List.mem_singleton] at ha
    subst ha
    exact Nat.le_refl 1
  | cons x rest ih =>
    intro h a ha
    simp only [qStatsUpd] at ha
    by_cases hx : x.group_key = qid
    · rw [if_pos hx] at ha
      rcases List.mem_cons.mp ha with rfl | h2
      · have := h x (List.mem_cons_self _ _)
        simp only []
        omega
      · exact h a (List.mem_cons_of_mem _ h2)
    · rw [if_neg hx] at ha
      rcases List.mem_cons.mp ha with rfl | h2
      · exact h a (List.mem_cons_self _ _)
      · exact ih (fun a' ha' => h a' (List.mem_cons_of_mem _ ha')) a h2

/-- C9: every row of every statistics table has `attempts ≥ 1` (an entry is
created only when a row is assigned to it), so the division in `accuracy`
never divides by zero and the `accuracy = 0.0` fallback branch never fires:
the stored accuracy is always the rounded quotient. -/
theorem c9_attempts_positive :
    (∀ (rows : List Row) (kn : String) (f : QidParts → String) (s : GStat),
      s ∈ compute_group_stats rows kn f →
        1 ≤ s.attempts ∧
          s.accuracy = round4 ((s.correct : ℚ) / (s.attempts : ℚ))) ∧
    ∀ (rows : List Row) (s : QStat),
      s ∈ compute_question_stats rows →
        1 ≤ s.attempts ∧
          s.accuracy = round4 ((s.correct : ℚ) / (s.attempts : ℚ)) := by
  constructor
  · intro rows kn f s hs
    unfold compute_group_stats at hs
    rw [mem_pySort] at hs
    obtain ⟨a, ha, rfl⟩ := List.mem_map.mp hs
    have hinv : 1 ≤ a.attempts := by
      refine foldl_gacc_inv _ ?_ rows [] (by simp) a ha
      intro acc b hacc a' ha'
      dsimp only [] at ha'
      split at ha'
      · exact hacc a' ha'
      · split at ha'
        · exact hacc a' ha'
        · exact statsUpd_inv _ _ acc hacc a' ha'
    refine ⟨hinv, ?_⟩
    simp only [gAccRow]
    rw [if_neg (by omega)]
  · intro rows s hs
    unfold compute_question_stats at hs
    rw [mem_pySort] at hs
    obtain ⟨a, ha, rfl⟩ := List.mem_map.mp hs
    have hinv : 1 ≤ a.attempts := by
      refine foldl_gacc_inv _ ?_ rows [] (by simp) a ha
      intro acc b hacc a' ha'
      split at ha'
      · exact hacc a' ha'
      · exact qStatsUpd_inv _ _ acc hacc a' ha'
    refine ⟨hinv, ?_⟩
    simp only [qAccRow]
    rw [if_neg (by omega)]

/-- Witness for C9 at a one-row table (membership holds by definitional
evaluation of `compute_question_stats`). -/
theorem c9_attempts_positive_witness :
    1 ≤ (⟨"T1A01", 1, 1, 0,
        round4 (((1 : Nat) : ℚ) / ((1 : Nat) : ℚ))⟩ : QStat).attempts ∧
      (⟨"T1A01", 1, 1, 0,
        round4 (((1 : Nat) : ℚ) / ((1 : Nat) : ℚ))⟩ : QStat).accuracy =
        round4 (((⟨"T1A01", 1, 1, 0,
            round4 (((1 : Nat) : ℚ) / ((1 : Nat) : ℚ))⟩ : QStat).correct : ℚ) /
          ((⟨"T1A01", 1, 1, 0,
            round4 (((1 : Nat) : ℚ) / ((1 : Nat) : ℚ))⟩ : QStat).attempts : ℚ)) :=
  c9_attempts_positive.2 [⟨"s", 1, "", none, 1, "T1A01", 'A', 'A', true⟩]
    ⟨"T1A01", 1, 1, 0, round4 (((1 : Nat) : ℚ) / ((1 : Nat) : ℚ))⟩
    (by exact List.mem_singleton_self _)

/-- C8: writing an empty row collection changes nothing in the file system
(no file is created, the target path keeps its previous contents), and for a
non-empty collection the written header row is exactly the key list of the
first row. -/
theorem c8_write_csv_frame :
    ∀ (fs : String → Option (List (List String))) (path : String)
      (rows : List (List (String × String))),
      (rows = [] → write_csv fs path rows = fs) ∧
      ∀ r rs, rows = r :: rs →
        (write_csv fs path rows) path =
          some ((r.map Prod.fst) ::
            rows.map fun row => (r.map Prod.fst).map fun k =>
              ((row.find? (fun kv => kv.1 = k)).map Prod.snd).getD "") := by
  intro fs path rows
  constructor
  · intro h
    subst h
    rfl
  · intro r rs h
    subst h
    simp [write_csv]

/-- Witness for C8: the empty write leaves the (empty) file system untouched
and a one-row write produces the header from the row's keys. -/
theorem c8_write_csv_frame_witness :
    write_csv (fun _ => none) "out.csv" [] = (fun _ => none) ∧
      (write_csv (fun _ => none) "out.csv" [[("a", "1")]]) "out.csv" =
        some [["a"], ["1"]] :=
  ⟨(c8_write_csv_frame (fun _ => none) "out.csv" []).1 rfl,
    ((c8_write_csv_frame (fun _ => none) "out.csv" [[("a", "1")]]).2
      [("a", "1")] [] rfl).trans (by decide)⟩
